import Mathlib

set_option maxHeartbeats 1000000

/-!
Verification development for the internal-link checker
(`check_broken_links.py`).

The Python source is shallowly embedded:

* Python strings are Lean `String`s (a wrapper around `List Char`);
  the string methods the program uses (`strip`, `rstrip("/")`,
  `startswith`) are modelled on the character list.
* The external URL library (`urllib.parse`: `urljoin`, `urldefrag`,
  `urlparse`) is modelled after CPython's implementation of RFC 3986
  resolution (`urlsplit` / `urlunsplit` / `urljoin`).  The `params`
  component is folded into the path and control-character
  sanitisation is omitted; none of the properties below depend on
  these corners.
* The HTTP fetch and the HTML hyperlink extraction are external
  collaborators; they are modelled by an oracle
  `fetch : String → FetchOutcome` giving, per URL, either a status
  code together with the raw `href` attributes of the page, or a
  transport-error description (a raised `requests.RequestException`).
* The shared crawl state (visited set, discovered set, broken list,
  status histogram) is a record; the `defaultdict(int)` histogram,
  which is only ever incremented, is a `Multiset` of keys.
* The concurrent execution of `fetch_and_extract` tasks under the
  scheduler is a small-step transition system (`Step`/`Exec`) whose
  atomic actions are exactly the program's `with lock:` blocks plus
  the fetch itself; the thread pool's wave structure is one
  particular schedule of this (more permissive) transition system.
-/

namespace CheckBrokenLinks

/-! ### Python string primitives -/

/-- The whitespace characters removed by Python's `str.strip()`
(restricted to the ASCII range). -/
def isPySpace (c : Char) : Bool :=
  c == ' ' || c == '\t' || c == '\n' || c == '\r' || c == '\x0b' || c == '\x0c'

/-- Python `s.strip()`: remove leading and trailing whitespace. -/
def pyStrip (s : String) : String :=
  ⟨((s.data.dropWhile isPySpace).reverse.dropWhile isPySpace).reverse⟩

/-- Python `s.rstrip("/")`: remove every trailing `'/'`. -/
def pyRstripSlash (s : String) : String :=
  ⟨(s.data.reverse.dropWhile (fun c => c == '/')).reverse⟩

/-- Python `s.startswith(pre)`. -/
def pyStartswith (s pre : String) : Bool :=
  s.data.take pre.data.length == pre.data

/-! ### Model of `urllib.parse` (CPython's RFC 3986 resolution) -/

/-- Result of `urlsplit`: scheme, netloc, path, query, fragment
(the rarely used `params` component of `urlparse` is kept inside
the path). -/
structure SplitResult where
  scheme : String
  netloc : String
  path : String
  query : String
  fragment : String
deriving DecidableEq, Repr

/-- `scheme_chars` of `urllib.parse`. -/
def schemeChars : List Char :=
  "abcdefghijklmnopqrstuvwxyzABCDEFGHIJKLMNOPQRSTUVWXYZ0123456789+-.".data

/-- Scheme detection of `urlsplit`: a leading `name:` where `name`
starts with a letter and continues with `scheme_chars`; the scheme is
lower-cased and removed. -/
def splitScheme (url : List Char) : Option (List Char × List Char) :=
  match url.findIdx? (fun c => c == ':') with
  | none => none
  | some i =>
    if i = 0 then none
    else
      match url.take i with
      | [] => none
      | c :: rest =>
        if c.isAlpha && rest.all (fun d => schemeChars.contains d) then
          some ((c :: rest).map Char.toLower, url.drop (i + 1))
        else none

/-- A character ending the netloc in `_splitnetloc`. -/
def netlocEnd (c : Char) : Bool := c == '/' || c == '?' || c == '#'

/-- Scheme stage of `urlsplit`: the detected scheme (or the default)
and the remaining characters. -/
def splitSchemePair (url ds : List Char) : List Char × List Char :=
  match splitScheme url with
  | some sr => sr
  | none => (ds, url)

/-- `_splitnetloc` stage: if the rest begins with `//`, the netloc runs
to the first of `/`, `?`, `#`. -/
def splitNetlocPair (rest : List Char) : List Char × List Char :=
  if rest.take 2 = ['/', '/'] then
    ((rest.drop 2).takeWhile (fun c => !netlocEnd c),
     (rest.drop 2).dropWhile (fun c => !netlocEnd c))
  else ([], rest)

/-- Fragment stage: `url.split('#', 1)` when a `'#'` is present. -/
def splitFragment (rest : List Char) : List Char × List Char :=
  if rest.contains '#' then
    (rest.takeWhile (fun c => !(c == '#')), (rest.dropWhile (fun c => !(c == '#'))).drop 1)
  else (rest, [])

/-- Query stage: `url.split('?', 1)` when a `'?'` is present. -/
def splitQuery (rest : List Char) : List Char × List Char :=
  if rest.contains '?' then
    (rest.takeWhile (fun c => !(c == '?')), (rest.dropWhile (fun c => !(c == '?'))).drop 1)
  else (rest, [])

/-- CPython `urlsplit` on character lists, with a default scheme (as in
`urlparse(url, bscheme)`): scheme, then netloc, then fragment, then
query. -/
def urlsplitData (url : List Char) (defaultScheme : List Char) : SplitResult :=
  let sr := splitSchemePair url defaultScheme
  let nr := splitNetlocPair sr.2
  let fr := splitFragment nr.2
  let pq := splitQuery fr.1
  ⟨⟨sr.1⟩, ⟨nr.1⟩, ⟨pq.1⟩, ⟨pq.2⟩, ⟨fr.2⟩⟩

/-- `urlparse(url, defaultScheme)` restricted to the five components
used here. -/
def urlsplit (url : String) (defaultScheme : String) : SplitResult :=
  urlsplitData url.data defaultScheme.data

/-- `urlunsplit` stage: prepend `//netloc` when a netloc is present (or
the path begins with `//`), inserting a `/` before a relative path. -/
def urlAddNetloc (netloc url : List Char) : List Char :=
  if netloc ≠ [] ∨ url.take 2 = ['/', '/'] then
    '/' :: '/' :: netloc ++ (if url ≠ [] ∧ url.take 1 ≠ ['/'] then '/' :: url else url)
  else url

/-- `urlunsplit` stage: prepend `scheme:` when a scheme is present. -/
def urlAddScheme (scheme url : List Char) : List Char :=
  if scheme ≠ [] then scheme ++ ':' :: url else url

/-- `urlunsplit` stage: append `?query` when a query is present. -/
def urlAddQuery (query url : List Char) : List Char :=
  if query ≠ [] then url ++ '?' :: query else url

/-- `urlunsplit` stage: append `#fragment` when a fragment is present. -/
def urlAddFragment (fragment url : List Char) : List Char :=
  if fragment ≠ [] then url ++ '#' :: fragment else url

/-- CPython `urlunsplit` on character lists. -/
def urlunsplitData (r : SplitResult) : List Char :=
  urlAddFragment r.fragment.data
    (urlAddQuery r.query.data
      (urlAddScheme r.scheme.data
        (urlAddNetloc r.netloc.data r.path.data)))

/-- `urlunparse` restricted to the five components used here. -/
def urlunsplit (r : SplitResult) : String := ⟨urlunsplitData r⟩

/-- `uses_relative` of `urllib.parse`. -/
def usesRelative : List String :=
  ["", "ftp", "http", "gopher", "nntp", "imap", "wais", "file", "https", "shttp",
   "mms", "prospero", "rtsp", "rtspu", "sftp", "svn", "svn+ssh", "ws", "wss"]

/-- `uses_netloc` of `urllib.parse`. -/
def usesNetloc : List String :=
  ["", "ftp", "http", "gopher", "nntp", "telnet", "imap", "wais", "file", "mms",
   "https", "shttp", "snews", "prospero", "rtsp", "rtspu", "rsync", "svn",
   "svn+ssh", "sftp", "nfs", "git", "git+ssh", "ws", "wss", "itms-services"]

/-- Dot-segment resolution of `urljoin`: `..` pops (ignoring underflow),
`.` is skipped, anything else is appended. -/
def resolveDots : List (List Char) → List (List Char) → List (List Char)
  | acc, [] => acc
  | acc, seg :: rest =>
    if seg = ['.', '.'] then resolveDots acc.dropLast rest
    else if seg = ['.'] then resolveDots acc rest
    else resolveDots (acc ++ [seg]) rest

/-- The slice assignment `segments[1:-1] = filter(None, segments[1:-1])`
of `urljoin`: drop empty segments strictly between the first and the
last. -/
def interiorFilter (segs : List (List Char)) : List (List Char) :=
  match segs with
  | [] => []
  | [a] => [a]
  | a :: b :: rest =>
    let tailSegs := b :: rest
    a :: ((tailSegs.dropLast.filter (fun s => !s.isEmpty)) ++
          [tailSegs.getLast (List.cons_ne_nil b rest)])

/-- CPython `urljoin(base, url)` (3.6+ algorithm), with the `params`
component folded into the path. -/
def urljoin (base url : String) : String :=
  if base = "" then url
  else if url = "" then base
  else
    let b := urlsplit base ""
    let u := urlsplit url b.scheme
    if u.scheme ≠ b.scheme ∨ u.scheme ∉ usesRelative then url
    else
      let netloc :=
        if u.scheme ∈ usesNetloc then
          (if u.netloc ≠ "" then u.netloc else b.netloc)
        else u.netloc
      if u.scheme ∈ usesNetloc ∧ u.netloc ≠ "" then
        urlunsplit ⟨u.scheme, u.netloc, u.path, u.query, u.fragment⟩
      else if u.path = "" then
        urlunsplit ⟨u.scheme, netloc, b.path,
          (if u.query = "" then b.query else u.query), u.fragment⟩
      else
        let pathSegs := u.path.data.splitOn '/'
        let baseParts0 := b.path.data.splitOn '/'
        let baseParts :=
          if baseParts0.getLast? ≠ some [] then baseParts0.dropLast else baseParts0
        let segments :=
          if u.path.data.take 1 = ['/'] then pathSegs
          else interiorFilter (baseParts ++ pathSegs)
        let resolved0 := resolveDots [] segments
        let resolved :=
          if segments.getLast? = some ['.'] ∨ segments.getLast? = some ['.', '.'] then
            resolved0 ++ [[]]
          else resolved0
        let joined := List.intercalate ['/'] resolved
        urlunsplit ⟨u.scheme, netloc, ⟨if joined = [] then ['/'] else joined⟩,
          u.query, u.fragment⟩

/-- CPython `urldefrag(url)` (first component): remove everything from
the first `'#'` on; a URL without `'#'` is returned unchanged. -/
def urldefrag (url : String) : String :=
  if url.data.contains '#' then
    let r := urlsplit url ""
    urlunsplit ⟨r.scheme, r.netloc, r.path, r.query, ""⟩
  else url

/-! ### The repository's leaf functions -/

/-- `normalize_url(base, link)`:
`urljoin`, drop the fragment, `strip()`, `rstrip("/")`. -/
def normalize_url (base link : String) : String :=
  pyRstripSlash (pyStrip (urldefrag (urljoin base link)))

/-- `is_internal(base_url, url)`:
`urlparse(url).netloc == urlparse(base_url).netloc`. -/
def is_internal (base_url url : String) : Bool :=
  (urlsplit url "").netloc == (urlsplit base_url "").netloc

/-! ### Shared crawl state and the fetch-and-extract task -/

/-- Key of the status histogram `stats`: an HTTP status code, or the
literal `"error"` key used for transport failures. -/
inductive StatKey
  | code (status : Nat)
  | error
deriving DecidableEq, Repr

/-- The `error` field of a broken-link tuple: either the integer status
code, or the string description of a `requests.RequestException`. -/
inductive ErrVal
  | status (n : Nat)
  | msg (s : String)
deriving DecidableEq, Repr

/-- A broken-link tuple `(target_url, error, source_url)`. -/
abbrev BrokenRec := String × ErrVal × String

/-- A frontier entry `(url, depth, source)`.  Depths are Python ints
(the CLI may pass any integer as `max_depth`). -/
structure Entry where
  url : String
  depth : Int
  source : String
deriving DecidableEq, Repr

/-- The shared mutable state: `visited`, `discovered`, `broken`,
`stats`.  The histogram, a `defaultdict(int)` that is only ever
incremented, is the multiset of its increment keys: `stats[k]` is the
multiplicity of `k`. -/
structure CrawlState where
  visited : Finset String
  discovered : Finset String
  broken : List BrokenRec
  stats : Multiset StatKey

/-- Outcome of `requests.get(url)` combined with the external HTML
extraction: either a status code with the raw `href` attributes of the
body, or a raised `requests.RequestException` with its description. -/
inductive FetchOutcome
  | ok (status : Nat) (hrefs : List String)
  | exn (msg : String)
deriving DecidableEq, Repr

/-- One iteration of the extraction loop of `fetch_and_extract` for a
raw `href` value: normalize against the current page, skip `mailto:` /
`tel:` and external links, and atomically (one `with lock:` block)
test-and-add the discovered set, accumulating a new frontier entry. -/
def processHref (base_url url : String) (depth : Int)
    (sl : CrawlState × List Entry) (href0 : String) : CrawlState × List Entry :=
  let s := sl.1
  let links := sl.2
  let href := normalize_url url href0
  if pyStartswith href "mailto:" || pyStartswith href "tel:" then (s, links)
  else if is_internal base_url href then
    (if href ∈ s.discovered then (s, links)
     else ({s with discovered := insert href s.discovered},
           links ++ [⟨href, depth + 1, url⟩]))
  else (s, links)

/-- `fetch_and_extract(url, base_url, depth, max_depth, source_url)`
run in isolation (no interleaving): the dedup/depth gate, the fetch via
the oracle, status recording, broken-link recording, and link
extraction, returning the updated shared state and the new frontier
entries. -/
def fetch_and_extract (fetch : String → FetchOutcome) (url base_url : String)
    (depth max_depth : Int) (source_url : String) (s : CrawlState) :
    CrawlState × List Entry :=
  if url ∈ s.visited ∨ max_depth < depth then (s, [])
  else
    let s1 := {s with visited := insert url s.visited}
    match fetch url with
    | FetchOutcome.exn e =>
        ({s1 with stats := StatKey.error ::ₘ s1.stats,
                  broken := s1.broken ++ [(url, ErrVal.msg e, source_url)]}, [])
    | FetchOutcome.ok status hrefs =>
        let s2 := {s1 with stats := StatKey.code status ::ₘ s1.stats}
        if 400 ≤ status then
          ({s2 with broken := s2.broken ++ [(url, ErrVal.status status, source_url)]}, [])
        else
          hrefs.foldl (processHref base_url url depth) (s2, [])

/-! ### Final CSV export -/

/-- The row loop of `export_errors_to_csv`: an integer error is written
(as its decimal string) only if it is 400, 404 or 500; a string error is
written as the literal token `ERROR`; other integer errors are skipped. -/
def exportRows : List BrokenRec → List (List String)
  | [] => []
  | (url, err, source) :: rest =>
    match err with
    | ErrVal.status n =>
        if n = 400 ∨ n = 404 ∨ n = 500 then
          [toString n, url, source] :: exportRows rest
        else exportRows rest
    | ErrVal.msg _ => ["ERROR", url, source] :: exportRows rest

/-- `export_errors_to_csv`: the header row followed by the filtered
broken-link rows, as lists of CSV field values. -/
def export_errors_to_csv (broken : List BrokenRec) : List (List String) :=
  ["Error", "URL", "Source"] :: exportRows broken

/-! ### The concurrent scheduler as a small-step transition system

Each task executing `fetch_and_extract` is an automaton whose atomic
actions are the function's `with lock:` blocks plus the fetch call
itself.  A configuration holds the shared state, the scheduler's
frontier queue, and every task ever dispatched with its current phase.
The `Step` relation lets any task advance by one atomic action, lets
the scheduler dispatch the front frontier entry as a new task
(`executor.submit`), and lets it collect any finished task's result
into the queue (`as_completed` + `queue.extend`); the thread pool's
wave structure and worker bound select particular schedules of this
system, so every invariant proved for all its executions covers the
program. -/

/-- Execution phase of one `fetch_and_extract` task. -/
inductive Phase
  | start
  | skipped
  | fetching
  | gotOk (status : Nat) (hrefs : List String)
  | gotErr (msg : String)
  | classified (status : Nat) (hrefs : List String)
  | extracting (hrefs : List String) (acc : List Entry)
  | done (result : List Entry)
  | collected (result : List Entry)
  | collectedSkip
deriving DecidableEq, Repr

/-- A dispatched task: its frontier entry and current phase. -/
structure CrawlTask where
  entry : Entry
  phase : Phase
deriving DecidableEq, Repr

/-- A configuration of the crawl: shared state, frontier queue, tasks. -/
structure Config where
  st : CrawlState
  queue : List Entry
  tasks : List CrawlTask

/-- Initial configuration of `crawl_concurrent(base_url, max_depth)`:
empty shared state except `discovered = {base_url}`, the seed frontier
entry `(base_url, 0, "root")`, no tasks. -/
def initConfig (base_url : String) : Config :=
  ⟨⟨∅, {base_url}, [], 0⟩, [⟨base_url, 0, "root"⟩], []⟩

/-- One atomic action.  The label is the list of URLs HTTP-fetched by
the action (empty or a singleton). -/
inductive Step (fetch : String → FetchOutcome) (base_url : String) (max_depth : Int) :
    Config → List String → Config → Prop
  /-- `queue.popleft()` + `executor.submit(fetch_and_extract, ...)`. -/
  | dispatch (st : CrawlState) (e : Entry) (q : List Entry) (ts : List CrawlTask) :
      Step fetch base_url max_depth ⟨st, e :: q, ts⟩ []
        ⟨st, q, ts ++ [⟨e, Phase.start⟩]⟩
  /-- The gate block `with lock: if url in visited or depth > max_depth:
  return []` when it fails: the task returns `[]` without touching the
  state. -/
  | gateSkip (st : CrawlState) (q : List Entry) (t1 t2 : List CrawlTask) (e : Entry)
      (h : e.url ∈ st.visited ∨ max_depth < e.depth) :
      Step fetch base_url max_depth ⟨st, q, t1 ++ ⟨e, Phase.start⟩ :: t2⟩ []
        ⟨st, q, t1 ++ ⟨e, Phase.skipped⟩ :: t2⟩
  /-- The gate block when it passes: atomically checks and inserts
  `url` into `visited`. -/
  | gatePass (st : CrawlState) (q : List Entry) (t1 t2 : List CrawlTask) (e : Entry)
      (h1 : e.url ∉ st.visited) (h2 : e.depth ≤ max_depth) :
      Step fetch base_url max_depth ⟨st, q, t1 ++ ⟨e, Phase.start⟩ :: t2⟩ []
        ⟨{st with visited := insert e.url st.visited}, q,
          t1 ++ ⟨e, Phase.fetching⟩ :: t2⟩
  /-- `requests.get(url)` returning a response (labelled fetch). -/
  | fetchOk (st : CrawlState) (q : List Entry) (t1 t2 : List CrawlTask) (e : Entry)
      (status : Nat) (hrefs : List String) (h : fetch e.url = FetchOutcome.ok status hrefs) :
      Step fetch base_url max_depth ⟨st, q, t1 ++ ⟨e, Phase.fetching⟩ :: t2⟩ [e.url]
        ⟨st, q, t1 ++ ⟨e, Phase.gotOk status hrefs⟩ :: t2⟩
  /-- `requests.get(url)` raising `requests.RequestException`
  (labelled fetch). -/
  | fetchErr (st : CrawlState) (q : List Entry) (t1 t2 : List CrawlTask) (e : Entry)
      (msg : String) (h : fetch e.url = FetchOutcome.exn msg) :
      Step fetch base_url max_depth ⟨st, q, t1 ++ ⟨e, Phase.fetching⟩ :: t2⟩ [e.url]
        ⟨st, q, t1 ++ ⟨e, Phase.gotErr msg⟩ :: t2⟩
  /-- The block `with lock: stats[status] += 1`. -/
  | recordStatus (st : CrawlState) (q : List Entry) (t1 t2 : List CrawlTask) (e : Entry)
      (status : Nat) (hrefs : List String) :
      Step fetch base_url max_depth ⟨st, q, t1 ++ ⟨e, Phase.gotOk status hrefs⟩ :: t2⟩ []
        ⟨{st with stats := StatKey.code status ::ₘ st.stats}, q,
          t1 ++ ⟨e, Phase.classified status hrefs⟩ :: t2⟩
  /-- The `except` block: `with lock: stats["error"] += 1;
  broken.append(...)`; the task returns `[]` — the exception is consumed
  here and never reaches the scheduler. -/
  | errCommit (st : CrawlState) (q : List Entry) (t1 t2 : List CrawlTask) (e : Entry)
      (msg : String) :
      Step fetch base_url max_depth ⟨st, q, t1 ++ ⟨e, Phase.gotErr msg⟩ :: t2⟩ []
        ⟨{st with stats := StatKey.error ::ₘ st.stats,
                  broken := st.broken ++ [(e.url, ErrVal.msg msg, e.source)]}, q,
          t1 ++ ⟨e, Phase.done []⟩ :: t2⟩
  /-- The block `with lock: broken.append(...)` for `status >= 400`;
  the task returns `[]`. -/
  | brokenCommit (st : CrawlState) (q : List Entry) (t1 t2 : List CrawlTask) (e : Entry)
      (status : Nat) (hrefs : List String) (h : 400 ≤ status) :
      Step fetch base_url max_depth
        ⟨st, q, t1 ++ ⟨e, Phase.classified status hrefs⟩ :: t2⟩ []
        ⟨{st with broken := st.broken ++ [(e.url, ErrVal.status status, e.source)]}, q,
          t1 ++ ⟨e, Phase.done []⟩ :: t2⟩
  /-- For `status < 400`, enter the extraction loop over the page's
  `href` attributes. -/
  | beginExtract (st : CrawlState) (q : List Entry) (t1 t2 : List CrawlTask) (e : Entry)
      (status : Nat) (hrefs : List String) (h : status < 400) :
      Step fetch base_url max_depth
        ⟨st, q, t1 ++ ⟨e, Phase.classified status hrefs⟩ :: t2⟩ []
        ⟨st, q, t1 ++ ⟨e, Phase.extracting hrefs []⟩ :: t2⟩
  /-- One iteration of the extraction loop (its `with lock:` block
  together with the pure normalisation/filtering before it). -/
  | extractStep (st : CrawlState) (q : List Entry) (t1 t2 : List CrawlTask) (e : Entry)
      (href : String) (hrefs : List String) (acc : List Entry) :
      Step fetch base_url max_depth
        ⟨st, q, t1 ++ ⟨e, Phase.extracting (href :: hrefs) acc⟩ :: t2⟩ []
        ⟨(processHref base_url e.url e.depth (st, acc) href).1, q,
          t1 ++ ⟨e, Phase.extracting hrefs
            (processHref base_url e.url e.depth (st, acc) href).2⟩ :: t2⟩
  /-- End of the extraction loop: `return result_links`. -/
  | extractDone (st : CrawlState) (q : List Entry) (t1 t2 : List CrawlTask) (e : Entry)
      (acc : List Entry) :
      Step fetch base_url max_depth ⟨st, q, t1 ++ ⟨e, Phase.extracting [] acc⟩ :: t2⟩ []
        ⟨st, q, t1 ++ ⟨e, Phase.done acc⟩ :: t2⟩
  /-- `future.result()` in `as_completed`: `if result:
  queue.extend(result)`. -/
  | collect (st : CrawlState) (q : List Entry) (t1 t2 : List CrawlTask) (e : Entry)
      (r : List Entry) :
      Step fetch base_url max_depth ⟨st, q, t1 ++ ⟨e, Phase.done r⟩ :: t2⟩ []
        ⟨st, (if r.isEmpty then q else q ++ r), t1 ++ ⟨e, Phase.collected r⟩ :: t2⟩
  /-- `future.result()` for a task that failed the gate (result `[]`). -/
  | collectSkip (st : CrawlState) (q : List Entry) (t1 t2 : List CrawlTask) (e : Entry) :
      Step fetch base_url max_depth ⟨st, q, t1 ++ ⟨e, Phase.skipped⟩ :: t2⟩ []
        ⟨st, q, t1 ++ ⟨e, Phase.collectedSkip⟩ :: t2⟩

/-- Executions: reflexive-transitive chains of steps, accumulating the
list of fetched URLs. -/
inductive Exec (fetch : String → FetchOutcome) (base_url : String) (max_depth : Int) :
    Config → List String → Config → Prop
  | refl (c : Config) : Exec fetch base_url max_depth c [] c
  | step {c1 : Config} {l : List String} {c2 : Config} {tr : List String} {c3 : Config} :
      Step fetch base_url max_depth c1 l c2 → Exec fetch base_url max_depth c2 tr c3 →
      Exec fetch base_url max_depth c1 (l ++ tr) c3

/-! ### Phase classifiers and counters for the invariants -/

/-- Phases of a task that has passed (and consumed) the visited gate. -/
def phasePastGate : Phase → Bool
  | Phase.start => false
  | Phase.skipped => false
  | Phase.collectedSkip => false
  | _ => true

/-- Phases of a task that has already performed its HTTP fetch. -/
def phasePostFetch : Phase → Bool
  | Phase.gotOk _ _ => true
  | Phase.gotErr _ => true
  | Phase.classified _ _ => true
  | Phase.extracting _ _ => true
  | Phase.done _ => true
  | Phase.collected _ => true
  | _ => false

/-- Phases of a task that passed the gate but has not yet recorded its
histogram entry. -/
def phaseMidStats : Phase → Bool
  | Phase.fetching => true
  | Phase.gotOk _ _ => true
  | Phase.gotErr _ => true
  | _ => false

/-- Phases of a task whose body `fetch_and_extract` is currently
executing (dispatched, started, not yet returned). -/
def phaseMidExec : Phase → Bool
  | Phase.fetching => true
  | Phase.gotOk _ _ => true
  | Phase.gotErr _ => true
  | Phase.classified _ _ => true
  | Phase.extracting _ _ => true
  | _ => false

/-- Phases of a task whose result has been collected by the scheduler. -/
def phaseFinished : Phase → Bool
  | Phase.collected _ => true
  | Phase.collectedSkip => true
  | _ => false

/-- Frontier entries produced by a task but not yet handed back to the
scheduler's queue. -/
def phaseHolding : Phase → List Entry
  | Phase.extracting _ acc => acc
  | Phase.done r => r
  | _ => []

/-- Number of entries for `u` in a list of frontier entries. -/
def entCount (l : List Entry) (u : String) : Nat :=
  l.countP (fun e => e.url == u)

/-- Total number of pending occurrences of the URL `u` in a
configuration: queue entries, entries held inside tasks, and tasks
themselves. -/
def occ (c : Config) (u : String) : Nat :=
  entCount c.queue u
    + (c.tasks.map (fun t => entCount (phaseHolding t.phase) u)).sum
    + c.tasks.countP (fun t => t.entry.url == u)

/-- No task is mid-execution (claim C10's quiescence; in particular
termination). -/
def Quiescent (c : Config) : Prop :=
  ∀ t ∈ c.tasks, phaseMidExec t.phase = false

/-- The crawl has terminated: the frontier is empty and every
dispatched task has completed and been collected. -/
def Terminal (c : Config) : Prop :=
  c.queue = [] ∧ ∀ t ∈ c.tasks, phaseFinished t.phase = true

/-- Number of tasks for URL `u` that have performed their HTTP fetch. -/
def fetchedCount (c : Config) (u : String) : Nat :=
  c.tasks.countP (fun t => t.entry.url == u && phasePostFetch t.phase)

/-- The inductive invariant of the crawl transition system:
every past-gate task's URL is visited and conversely; every discovered
URL has exactly one pending occurrence (in the queue, held inside a
task, or as a task); all URLs in play are discovered; gate decisions
are determined by depth; and the histogram count plus the number of
tasks between the gate and their histogram update equals the size of
the visited set. -/
structure Inv (max_depth : Int) (c : Config) : Prop where
  pastGate_visited : ∀ t ∈ c.tasks, phasePastGate t.phase = true →
    t.entry.url ∈ c.st.visited
  visited_task : ∀ u ∈ c.st.visited,
    ∃ t ∈ c.tasks, t.entry.url = u ∧ phasePastGate t.phase = true
  occ_discovered : ∀ u : String, occ c u = if u ∈ c.st.discovered then 1 else 0
  queue_discovered : ∀ e ∈ c.queue, e.url ∈ c.st.discovered
  holding_discovered : ∀ t ∈ c.tasks, ∀ e ∈ phaseHolding t.phase,
    e.url ∈ c.st.discovered
  task_discovered : ∀ t ∈ c.tasks, t.entry.url ∈ c.st.discovered
  skip_depth : ∀ t ∈ c.tasks,
    (t.phase = Phase.skipped ∨ t.phase = Phase.collectedSkip) →
    max_depth < t.entry.depth
  pass_depth : ∀ t ∈ c.tasks, phasePastGate t.phase = true →
    t.entry.depth ≤ max_depth
  stats_card : Multiset.card c.st.stats
      + c.tasks.countP (fun t => phaseMidStats t.phase)
    = c.st.visited.card

/-- Concrete frontier entries for the witness crawl. -/
def demoEntry0 : Entry := ⟨"http://h", 0, "root"⟩

def demoEntryA : Entry := ⟨"http://h/a", 1, "http://h"⟩

def demoEntryB : Entry := ⟨"http://h/b", 1, "http://h"⟩

/-- Final configuration of the witness crawl of `http://h` with
`max_depth = 0`: the base URL is visited; its two links are discovered
but, at depth 1 > 0, skipped. -/
def demoFinal : Config :=
  ⟨⟨{"http://h"}, {"http://h/b", "http://h/a", "http://h"}, [], {StatKey.code 200}⟩,
   [],
   [⟨demoEntry0, Phase.collected [demoEntryA, demoEntryB]⟩,
    ⟨demoEntryA, Phase.collectedSkip⟩,
    ⟨demoEntryB, Phase.collectedSkip⟩]⟩

/-! ### Spec-side definitions for the final-export refinement (claim C6) -/

/-- Following the spec's words: a Broken Link Record is eligible for
the final export iff its error is an integer status in {400, 404, 500}
or a transport-error description. -/
def finalExportEligible (r : BrokenRec) : Bool :=
  match r.2.1 with
  | ErrVal.status n => n == 400 || n == 404 || n == 500
  | ErrVal.msg _ => true

/-- Following the spec's words: an eligible record is rendered with its
integer status written as that integer, or with the literal token
`ERROR` for a transport error. -/
def finalExportRow (r : BrokenRec) : List String :=
  match r with
  | (url, ErrVal.status n, source) => [toString n, url, source]
  | (url, ErrVal.msg _, source) => ["ERROR", url, source]

/-! ### A concrete oracle for witness executions -/

/-- Witness oracle: the base page `http://h` returns 200 with two
internal links, `http://h/a` is a 404, and every other URL fails with
a transport error. -/
def demoFetch : String → FetchOutcome
  | "http://h" => FetchOutcome.ok 200 ["/a", "/b"]
  | "http://h/a" => FetchOutcome.ok 404 []
  | _ => FetchOutcome.exn "connection refused"

/-! ## Theorems -/

/-! ### Helper lemmas on the Python string primitives -/

theorem stringDataEq {a b : String} (h : a.data = b.data) : a = b := by
  cases a; cases b; subst h; rfl

theorem contains_false_iff (l : List Char) (c : Char) :
    l.contains c = false ↔ c ∉ l := by
  rw [← Bool.not_eq_true]
  simp [List.contains]

theorem head_dropWhile_false {α : Type} (p : α → Bool) (l : List α) (a : α)
    (h : (l.dropWhile p).head? = some a) : p a = false := by
  induction l with
  | nil => simp [List.dropWhile] at h
  | cons x xs ih =>
    rw [List.dropWhile_cons] at h
    by_cases hx : p x
    · rw [if_pos hx] at h; exact ih h
    · rw [if_neg hx] at h
      simp only [List.head?_cons, Option.some_inj] at h
      subst h
      exact Bool.eq_false_iff.mpr hx

/-- Decomposition of Python `rstrip("/")`: the original string is the
stripped string followed by some number of slashes. -/
theorem rstrip_decomp (s : String) :
    ∃ k, s.data = (pyRstripSlash s).data ++ List.replicate k '/' := by
  refine ⟨(s.data.reverse.takeWhile (fun c => c == '/')).length, ?_⟩
  have hsplit := List.takeWhile_append_dropWhile
    (p := fun c => c == '/') (l := s.data.reverse)
  have hrep : s.data.reverse.takeWhile (fun c => c == '/')
      = List.replicate (s.data.reverse.takeWhile (fun c => c == '/')).length '/' := by
    refine List.eq_replicate_of_mem ?_
    intro b hb
    have hp := List.mem_takeWhile_imp hb
    exact eq_of_beq hp
  calc s.data = s.data.reverse.reverse := (List.reverse_reverse _).symm
    _ = (s.data.reverse.takeWhile (fun c => c == '/')
          ++ s.data.reverse.dropWhile (fun c => c == '/')).reverse := by rw [hsplit]
    _ = (s.data.reverse.dropWhile (fun c => c == '/')).reverse
          ++ (s.data.reverse.takeWhile (fun c => c == '/')).reverse := by
            rw [List.reverse_append]
    _ = (pyRstripSlash s).data
          ++ List.replicate (s.data.reverse.takeWhile (fun c => c == '/')).length '/' := by
            congr 1
            conv_lhs => rw [hrep]
            rw [List.reverse_replicate]

/-- The output of `rstrip("/")` never ends in a slash. -/
theorem rstrip_no_trailing (s : String) :
    (pyRstripSlash s).data.getLast? = some '/' → False := by
  intro h
  rw [pyRstripSlash] at h
  rw [show ∀ l : List Char, l.reverse.getLast? = l.head? from
    fun l => by rw [← List.head?_reverse, List.reverse_reverse]] at h
  have := head_dropWhile_false (fun c => c == '/') s.data.reverse '/' h
  simp at this

/-- `rstrip("/")` is the identity on a string not ending in a slash. -/
theorem pyRstripSlash_eq_self (s : String)
    (h : s.data.getLast? = some '/' → False) : pyRstripSlash s = s := by
  refine stringDataEq ?_
  rw [pyRstripSlash]
  rcases hl : s.data.reverse with _ | ⟨x, xs⟩
  · have : s.data = [] := by
      have := congrArg List.reverse hl
      rwa [List.reverse_reverse] at this
    simp [this, hl]
  · have hx : (x == '/') = false := by
      have hh : s.data.getLast? = some x := by
        rw [← List.head?_reverse, hl, List.head?_cons]
      cases hbe : (x == '/') with
      | false => rfl
      | true => exact absurd (hh.trans (by rw [eq_of_beq hbe])) (fun q => h q)
    rw [List.dropWhile_cons, hx]
    simp only [Bool.false_eq_true, if_false]
    rw [← hl, List.reverse_reverse]

/-- Characters of `strip()` output come from the input. -/
theorem mem_pyStrip {s : String} {c : Char} (h : c ∈ (pyStrip s).data) :
    c ∈ s.data := by
  rw [pyStrip] at h
  rw [List.mem_reverse] at h
  have h2 := (List.dropWhile_sublist (l := (s.data.dropWhile isPySpace).reverse)
    (p := isPySpace)).mem h
  rw [List.mem_reverse] at h2
  exact (List.dropWhile_sublist (l := s.data) (p := isPySpace)).mem h2

/-- Characters of `rstrip("/")` output come from the input. -/
theorem mem_pyRstripSlash {s : String} {c : Char} (h : c ∈ (pyRstripSlash s).data) :
    c ∈ s.data := by
  rw [pyRstripSlash] at h
  rw [List.mem_reverse] at h
  have h2 := (List.dropWhile_sublist (l := s.data.reverse)
    (p := fun c => c == '/')).mem h
  rwa [List.mem_reverse] at h2

/-! ### The normalizer's output never contains a fragment marker -/

theorem toLower_ne_hash (d : Char) (hd : d.isAlpha = true ∨ d ∈ schemeChars) :
    Char.toLower d ≠ '#' := by
  intro heq
  unfold Char.toLower at heq
  dsimp only at heq
  split at heq
  · next hcond =>
    obtain ⟨h1, h2⟩ := hcond
    generalize hg : Char.toNat d = m at h1 h2 heq
    interval_cases m <;> exact absurd heq (by decide)
  · subst heq
    rcases hd with hh | hh
    · exact absurd hh (by decide)
    · exact absurd hh (by decide)

theorem mem_takeWhile_pred {p : Char → Bool} {l : List Char} {c : Char}
    (h : c ∈ l.takeWhile p) : p c = true :=
  List.mem_takeWhile_imp h

theorem hash_notmem_takeWhile {p : Char → Bool} (l : List Char) (hp : p '#' = false) :
    '#' ∉ l.takeWhile p := by
  intro hm
  have ht := mem_takeWhile_pred hm
  rw [hp] at ht
  exact Bool.false_ne_true ht

theorem hash_notmem_takeWhile_of {p : Char → Bool} {l : List Char} (h : '#' ∉ l) :
    '#' ∉ l.takeWhile p :=
  fun hm => h ((List.takeWhile_sublist p).mem hm)

theorem hash_notmem_dropWhile_drop {p : Char → Bool} {l : List Char} (n : Nat)
    (h : '#' ∉ l) : '#' ∉ (l.dropWhile p).drop n :=
  fun hm => h ((List.dropWhile_sublist p).mem ((List.drop_sublist n _).mem hm))

theorem splitScheme_no_hash {url sch rest : List Char}
    (h : splitScheme url = some (sch, rest)) : '#' ∉ sch := by
  intro hmem
  unfold splitScheme at h
  split at h
  · exact absurd h (by simp)
  · split at h
    · exact absurd h (by simp)
    · split at h
      · exact absurd h (by simp)
      · next c rest2 heq =>
        split at h
        · next hcond =>
          simp only [Option.some_inj, Prod.mk.injEq] at h
          obtain ⟨hsch, -⟩ := h
          subst hsch
          rw [List.mem_map] at hmem
          obtain ⟨d, hd, hlow⟩ := hmem
          rw [Bool.and_eq_true] at hcond
          obtain ⟨halpha, hall⟩ := hcond
          rcases List.mem_cons.mp hd with hd | hd
          · subst hd
            exact toLower_ne_hash d (Or.inl halpha) hlow
          · refine toLower_ne_hash d (Or.inr ?_) hlow
            have := (List.all_eq_true.mp hall) d hd
            simpa [List.contains] using this
        · exact absurd h (by simp)

theorem splitSchemePair_no_hash (url ds : List Char) (hds : '#' ∉ ds) :
    '#' ∉ (splitSchemePair url ds).1 := by
  unfold splitSchemePair
  rcases hss : splitScheme url with _ | p
  · exact hds
  · have hss2 : splitScheme url = some (p.1, p.2) := by rw [hss]
    exact splitScheme_no_hash hss2

theorem splitNetlocPair_no_hash (rest : List Char) :
    '#' ∉ (splitNetlocPair rest).1 := by
  unfold splitNetlocPair
  split_ifs
  · exact hash_notmem_takeWhile _ (by decide)
  · simp

theorem splitFragment_no_hash (rest : List Char) :
    '#' ∉ (splitFragment rest).1 := by
  unfold splitFragment
  split_ifs with hc
  · exact hash_notmem_takeWhile _ (by decide)
  · rw [Bool.not_eq_true] at hc
    exact (contains_false_iff _ _).mp hc

theorem splitQuery_no_hash {rest : List Char} (h : '#' ∉ rest) :
    '#' ∉ (splitQuery rest).1 ∧ '#' ∉ (splitQuery rest).2 := by
  unfold splitQuery
  split_ifs
  · exact ⟨hash_notmem_takeWhile_of h, hash_notmem_dropWhile_drop 1 h⟩
  · exact ⟨h, by simp⟩

theorem urlsplitData_no_hash (url ds : List Char) (hds : '#' ∉ ds) :
    ('#' ∉ (urlsplitData url ds).scheme.data) ∧ ('#' ∉ (urlsplitData url ds).netloc.data) ∧
    ('#' ∉ (urlsplitData url ds).path.data) ∧ ('#' ∉ (urlsplitData url ds).query.data) := by
  have hq := splitQuery_no_hash
    (splitFragment_no_hash (splitNetlocPair (splitSchemePair url ds).2).2)
  exact ⟨splitSchemePair_no_hash url ds hds, splitNetlocPair_no_hash _, hq.1, hq.2⟩

theorem urlAddNetloc_no_hash {netloc url : List Char}
    (hn : '#' ∉ netloc) (hu : '#' ∉ url) : '#' ∉ urlAddNetloc netloc url := by
  intro hm
  unfold urlAddNetloc at hm
  split_ifs at hm
  · rcases List.mem_cons.mp hm with h | h
    · exact absurd h (by decide)
    rcases List.mem_cons.mp h with h | h
    · exact absurd h (by decide)
    rcases List.mem_append.mp h with h | h
    · exact hn h
    rcases List.mem_cons.mp h with h | h
    · exact absurd h (by decide)
    · exact hu h
  · rcases List.mem_cons.mp hm with h | h
    · exact absurd h (by decide)
    rcases List.mem_cons.mp h with h | h
    · exact absurd h (by decide)
    rcases List.mem_append.mp h with h | h
    · exact hn h
    · exact hu h
  · exact hu hm

theorem urlAddScheme_no_hash {scheme url : List Char}
    (hs : '#' ∉ scheme) (hu : '#' ∉ url) : '#' ∉ urlAddScheme scheme url := by
  intro hm
  unfold urlAddScheme at hm
  split_ifs at hm
  · rcases List.mem_append.mp hm with h | h
    · exact hs h
    rcases List.mem_cons.mp h with h | h
    · exact absurd h (by decide)
    · exact hu h
  · exact hu hm

theorem urlAddQuery_no_hash {query url : List Char}
    (hq : '#' ∉ query) (hu : '#' ∉ url) : '#' ∉ urlAddQuery query url := by
  intro hm
  unfold urlAddQuery at hm
  split_ifs at hm
  · rcases List.mem_append.mp hm with h | h
    · exact hu h
    rcases List.mem_cons.mp h with h | h
    · exact absurd h (by decide)
    · exact hq h
  · exact hu hm

theorem urlunsplitData_no_hash (r : SplitResult)
    (h1 : '#' ∉ r.scheme.data) (h2 : '#' ∉ r.netloc.data)
    (h3 : '#' ∉ r.path.data) (h4 : '#' ∉ r.query.data) (h5 : r.fragment.data = []) :
    '#' ∉ urlunsplitData r := by
  unfold urlunsplitData
  rw [h5]
  rw [show urlAddFragment [] = fun url => url from by
    funext url; unfold urlAddFragment; simp]
  exact urlAddQuery_no_hash h4 (urlAddScheme_no_hash h1 (urlAddNetloc_no_hash h2 h3))

theorem urldefrag_no_hash (url : String) : '#' ∉ (urldefrag url).data := by
  unfold urldefrag
  split_ifs with hc
  · have h := urlsplitData_no_hash url.data ("".data) (by decide)
    exact urlunsplitData_no_hash ⟨(urlsplit url "").scheme, (urlsplit url "").netloc,
      (urlsplit url "").path, (urlsplit url "").query, ""⟩ h.1 h.2.1 h.2.2.1 h.2.2.2 rfl
  · rw [Bool.not_eq_true] at hc
    exact (contains_false_iff _ _).mp hc

theorem urldefrag_eq_self (s : String) (h : '#' ∉ s.data) : urldefrag s = s := by
  unfold urldefrag
  rw [if_neg]
  simp only [Bool.not_eq_true]
  exact (contains_false_iff _ _).mpr h

/-- The normalizer's output contains no `'#'`. -/
theorem normalize_no_hash (base link : String) : '#' ∉ (normalize_url base link).data :=
  fun h => urldefrag_no_hash (urljoin base link) (mem_pyStrip (mem_pyRstripSlash h))

/-! ### Claims C7, C8, C9 -/

/-- C7, counterexample: normalization is *not* idempotent for every
base URL and link string.  `rstrip("/")` runs after `strip()`, so
stripping the trailing slash of `http://x.com/a /` exposes a trailing
space, which the second normalization then removes. -/
theorem claim_C7_counterexample :
    normalize_url "http://x.com" (normalize_url "http://x.com" "http://x.com/a /")
      ≠ normalize_url "http://x.com" "http://x.com/a /" := by decide

/-- C7, amended: normalization is idempotent for every base URL and
link string such that the normalized output (i) is left unchanged when
resolved against the base again — as is the case for well-formed
absolute URLs — and (ii) carries no leading or trailing whitespace
(equivalently, `strip()` fixes it).  In general idempotence fails,
because stripping trailing slashes can expose trailing whitespace and
because URL resolution can alter an already-normalized relative
reference. -/
theorem claim_C7 (base link : String)
    (h1 : urljoin base (normalize_url base link) = normalize_url base link)
    (h2 : pyStrip (normalize_url base link) = normalize_url base link) :
    normalize_url base (normalize_url base link) = normalize_url base link := by
  conv_lhs => rw [normalize_url, h1,
    urldefrag_eq_self _ (normalize_no_hash base link), h2]
  exact pyRstripSlash_eq_self _ (rstrip_no_trailing _)

/-- Witness for C7 at `base = "http://x.com"`, `link = "p"` (normalized
form `http://x.com/p`). -/
theorem claim_C7_witness :
    urljoin "http://x.com" (normalize_url "http://x.com" "p")
        = normalize_url "http://x.com" "p"
    ∧ pyStrip (normalize_url "http://x.com" "p") = normalize_url "http://x.com" "p"
    ∧ normalize_url "http://x.com" (normalize_url "http://x.com" "p")
        = normalize_url "http://x.com" "p" :=
  ⟨by decide, by decide, claim_C7 "http://x.com" "p" (by decide) (by decide)⟩

/-- C8, counterexample: the normalizer does not strip exactly one
trailing slash.  For `base = "http://a.com"`, `link =
"http://a.com/p//"` the resolved, fragment-free, whitespace-trimmed
form is `http://a.com/p//`; keeping all but the last slash would give
`http://a.com/p/`, but the code's `rstrip("/")` removes both. -/
theorem claim_C8_counterexample :
    normalize_url "http://a.com" "http://a.com/p//" ≠ "http://a.com/p/"
    ∧ normalize_url "http://a.com" "http://a.com/p//" = "http://a.com/p" := by
  constructor <;> decide

/-- C8, amended: for every base URL and link string the normalizer
resolves the link against the base per standard URL-resolution rules,
drops the fragment component, removes leading/trailing whitespace, and
then strips *all* trailing slashes (an input whose resolved form ends
in several slashes loses every one of them): the resolved,
de-fragmented, trimmed string is the normalized output followed by
some number of slashes, the output never ends in a slash, and the
output contains no fragment marker. -/
theorem claim_C8 (base link : String) :
    (∃ k, (pyStrip (urldefrag (urljoin base link))).data
        = (normalize_url base link).data ++ List.replicate k '/')
    ∧ ((normalize_url base link).data.getLast? = some '/' → False)
    ∧ '#' ∉ (normalize_url base link).data :=
  ⟨rstrip_decomp (pyStrip (urldefrag (urljoin base link))),
   rstrip_no_trailing _, normalize_no_hash base link⟩

/-- C9, counterexample: two URLs on the same host with different
explicit ports are *not* classified as internal — `urlparse().netloc`
includes the port, and the scope filter compares full netlocs. -/
theorem claim_C9_counterexample :
    is_internal "http://h:80" "http://h:81" = false := by decide

/-- C9, amended: the scope filter returns true iff the full network
locations (authority: host together with any explicit port and user
info) of the candidate and the base URL are equal.  The scheme is
still not required to match, but the port is part of the compared
authority, so URLs on the same host with different explicit ports are
classified as external. -/
theorem claim_C9 :
    (∀ base_url url : String, is_internal base_url url = true ↔
        (urlsplit url "").netloc = (urlsplit base_url "").netloc)
    ∧ is_internal "http://h:80" "https://h:80/x" = true
    ∧ is_internal "http://h:80" "http://h:81" = false := by
  refine ⟨fun b u => ?_, by decide, by decide⟩
  unfold is_internal
  exact beq_iff_eq

/-! ### Claims C3, C4, C5: the fetch-and-extract task in isolation -/

/-- C3: a frontier entry with `depth > max_depth` is a complete no-op —
`fetch_and_extract` returns the empty list and the unchanged shared
state (the URL is not added to `visited`; histogram, broken list and
discovered set are untouched).  The right-hand side does not mention
the fetch oracle, so no fetch can be performed. -/
theorem claim_C3 (fetch : String → FetchOutcome) (url base_url : String)
    (depth max_depth : Int) (source_url : String) (s : CrawlState)
    (h : max_depth < depth) :
    fetch_and_extract fetch url base_url depth max_depth source_url s = (s, []) := by
  unfold fetch_and_extract
  rw [if_pos (Or.inr h)]

/-- Witness for C3: a depth-1 entry under `max_depth = 0`. -/
theorem claim_C3_witness :
    (0 : Int) < 1 ∧
      fetch_and_extract demoFetch "http://h/a" "http://h" 1 0 "http://h"
          ⟨∅, {"http://h"}, [], 0⟩
        = (⟨∅, {"http://h"}, [], 0⟩, []) :=
  ⟨by decide,
   claim_C3 demoFetch "http://h/a" "http://h" 1 0 "http://h" _ (by decide)⟩

/-- C4: for a fetched URL whose response has status ≥ 400, the task
increments the histogram entry for that status, appends exactly one
broken record carrying the integer status and the source URL, and
returns no frontier entries (no link extraction happens). -/
theorem claim_C4 (fetch : String → FetchOutcome) (url base_url : String)
    (depth max_depth : Int) (source_url : String) (s : CrawlState)
    (status : Nat) (hrefs : List String)
    (hv : url ∉ s.visited) (hd : depth ≤ max_depth)
    (hf : fetch url = FetchOutcome.ok status hrefs) (hs : 400 ≤ status) :
    fetch_and_extract fetch url base_url depth max_depth source_url s =
      ({ visited := insert url s.visited, discovered := s.discovered,
         broken := s.broken ++ [(url, ErrVal.status status, source_url)],
         stats := StatKey.code status ::ₘ s.stats }, []) := by
  unfold fetch_and_extract
  rw [if_neg (by push_neg; exact ⟨hv, hd⟩), hf]
  dsimp only
  rw [if_pos hs]

/-- Witness for C4: the 404 page of the demo oracle. -/
theorem claim_C4_witness :
    ("http://h/a" ∉ (∅ : Finset String))
    ∧ demoFetch "http://h/a" = FetchOutcome.ok 404 []
    ∧ fetch_and_extract demoFetch "http://h/a" "http://h" 0 5 "root"
          ⟨∅, {"http://h"}, [], 0⟩
        = ({ visited := insert "http://h/a" (∅ : Finset String),
             discovered := {"http://h"},
             broken := [] ++ [("http://h/a", ErrVal.status 404, "root")],
             stats := StatKey.code 404 ::ₘ 0 }, []) :=
  ⟨by decide, by decide,
   claim_C4 demoFetch "http://h/a" "http://h" 0 5 "root" _ 404 []
     (by decide) (by decide) (by decide) (by decide)⟩

/-- C5: a transport failure increments the `"error"` histogram key,
appends exactly one broken record carrying the error description, and
returns no frontier entries.  The exception is consumed inside the
function (the model's total `match` on the oracle's outcome), so it
never propagates to the scheduler. -/
theorem claim_C5 (fetch : String → FetchOutcome) (url base_url : String)
    (depth max_depth : Int) (source_url : String) (s : CrawlState) (msg : String)
    (hv : url ∉ s.visited) (hd : depth ≤ max_depth)
    (hf : fetch url = FetchOutcome.exn msg) :
    fetch_and_extract fetch url base_url depth max_depth source_url s =
      ({ visited := insert url s.visited, discovered := s.discovered,
         broken := s.broken ++ [(url, ErrVal.msg msg, source_url)],
         stats := StatKey.error ::ₘ s.stats }, []) := by
  unfold fetch_and_extract
  rw [if_neg (by push_neg; exact ⟨hv, hd⟩), hf]

/-- Witness for C5: an unreachable page of the demo oracle. -/
theorem claim_C5_witness :
    ("http://h/b" ∉ (∅ : Finset String))
    ∧ demoFetch "http://h/b" = FetchOutcome.exn "connection refused"
    ∧ fetch_and_extract demoFetch "http://h/b" "http://h" 1 5 "http://h"
          ⟨∅, {"http://h"}, [], 0⟩
        = ({ visited := insert "http://h/b" (∅ : Finset String),
             discovered := {"http://h"},
             broken := [] ++ [("http://h/b", ErrVal.msg "connection refused", "http://h")],
             stats := StatKey.error ::ₘ 0 }, []) :=
  ⟨by decide, by decide,
   claim_C5 demoFetch "http://h/b" "http://h" 1 5 "http://h" _ "connection refused"
     (by decide) (by decide) (by decide)⟩

/-! ### Claim C6: the final CSV export -/

/-- C6: the final export is the header row `Error,URL,Source` followed
by exactly the broken records whose error is an integer status in
{400, 404, 500} (written as that integer) or a transport-error
description (written as the literal token `ERROR`), in the order of
the broken list; records with any other integer status are omitted. -/
theorem claim_C6 (broken : List BrokenRec) :
    export_errors_to_csv broken =
      ["Error", "URL", "Source"] ::
        (broken.filter finalExportEligible).map finalExportRow := by
  unfold export_errors_to_csv
  congr 1
  induction broken with
  | nil => rfl
  | cons r rest ih =>
    obtain ⟨url, err, source⟩ := r
    cases err with
    | status n =>
      by_cases h : n = 400 ∨ n = 404 ∨ n = 500
      · have hb : finalExportEligible (url, ErrVal.status n, source) = true := by
          simp only [finalExportEligible]
          rcases h with h | h | h <;> simp [h]
        simp only [exportRows, if_pos h, List.filter_cons, hb, if_true,
          List.map_cons, ih]
        rfl
      · have hb : finalExportEligible (url, ErrVal.status n, source) = false := by
          simp only [finalExportEligible]
          push_neg at h
          simp [h.1, h.2.1, h.2.2]
        simp only [exportRows, if_neg h, List.filter_cons, hb, ih]
        simp
    | msg m =>
      have hb : finalExportEligible (url, ErrVal.msg m, source) = true := rfl
      simp only [exportRows, List.filter_cons, hb, if_true, List.map_cons, ih]
      rfl

/-! ### List lemmas for task-list surgery -/

theorem mem_middle_iff {α : Type} {t1 t2 : List α} {x y : α} :
    y ∈ t1 ++ x :: t2 ↔ y ∈ t1 ∨ y = x ∨ y ∈ t2 := by
  simp [List.mem_append, List.mem_cons]

theorem mem_middle_self {α : Type} (t1 t2 : List α) (x : α) : x ∈ t1 ++ x :: t2 :=
  mem_middle_iff.mpr (Or.inr (Or.inl rfl))

theorem countP_middle {α : Type} (p : α → Bool) (t1 t2 : List α) (x : α) :
    (t1 ++ x :: t2).countP p
      = t1.countP p + t2.countP p + (if p x = true then 1 else 0) := by
  rw [List.countP_append, List.countP_cons]
  omega

theorem mapSum_middle {α : Type} (f : α → Nat) (t1 t2 : List α) (x : α) :
    ((t1 ++ x :: t2).map f).sum = (t1.map f).sum + (t2.map f).sum + f x := by
  rw [List.map_append, List.sum_append, List.map_cons, List.sum_cons]
  omega

theorem countP_append_right {α : Type} (p : α → Bool) (t : List α) (x : α) :
    (t ++ [x]).countP p = t.countP p + (if p x = true then 1 else 0) := by
  rw [List.countP_append, List.countP_cons]
  by_cases h : p x = true <;> simp [h]

theorem mapSum_append_right {α : Type} (f : α → Nat) (t : List α) (x : α) :
    ((t ++ [x]).map f).sum = (t.map f).sum + f x := by
  rw [List.map_append, List.sum_append]
  simp

theorem two_le_countP {α : Type} (p : α → Bool) (l : List α) (a b : α)
    (ha : a ∈ l) (hb : b ∈ l) (hab : a ≠ b)
    (hpa : p a = true) (hpb : p b = true) : 2 ≤ l.countP p := by
  induction l with
  | nil => simp at ha
  | cons x xs ih =>
    rw [List.countP_cons]
    rcases List.mem_cons.mp ha with rfl | ha2
    · rcases List.mem_cons.mp hb with rfl | hb2
      · exact absurd rfl hab
      · simp [hpa]
        exact ⟨b, hb2, hpb⟩
    · rcases List.mem_cons.mp hb with rfl | hb2
      · simp [hpb]
        exact ⟨a, ha2, hpa⟩
      · have := ih ha2 hb2
        omega

theorem countP_le_of_imp {α : Type} (p q : α → Bool) (l : List α)
    (h : ∀ a ∈ l, p a = true → q a = true) : l.countP p ≤ l.countP q := by
  induction l with
  | nil => simp
  | cons x xs ih =>
    rw [List.countP_cons, List.countP_cons]
    have hxs := ih (fun a ha hp => h a (List.mem_cons_of_mem x ha) hp)
    cases hpx : p x with
    | false =>
      have e1 : (if false = true then (1:Nat) else 0) = 0 := by simp
      rw [e1]
      have h0 : (0:Nat) ≤ if q x = true then 1 else 0 := Nat.zero_le _
      omega
    | true =>
      have hq := h x (List.mem_cons_self x xs) hpx
      have e1 : (if true = true then (1:Nat) else 0) = 1 := by simp
      have e2 : (if q x = true then (1:Nat) else 0) = 1 := by simp [hq]
      rw [e1, e2]
      omega

/-! ### Preservation of the invariant -/

theorem entCount_append (l1 l2 : List Entry) (u : String) :
    entCount (l1 ++ l2) u = entCount l1 u + entCount l2 u := by
  simp [entCount, List.countP_append]

theorem entCount_singleton (x : Entry) (u : String) :
    entCount [x] u = if (x.url == u) = true then 1 else 0 := by
  by_cases h : (x.url == u) = true <;> simp [entCount, List.countP_cons, h]

/-- The occurrence count ignores the shared state and decomposes over
the middle task. -/
theorem occ_eq (st : CrawlState) (q : List Entry) (t1 t2 : List CrawlTask)
    (e : Entry) (ph : Phase) (u : String) :
    occ ⟨st, q, t1 ++ ⟨e, ph⟩ :: t2⟩ u
      = occ ⟨st, q, t1 ++ t2⟩ u + entCount (phaseHolding ph) u
        + (if (e.url == u) = true then 1 else 0) := by
  simp only [occ, List.countP_append, List.countP_cons, List.map_append,
    List.sum_append, List.map_cons, List.sum_cons]
  omega

/-- The occurrence count does not depend on the shared state. -/
theorem occ_config_st (s1 s2 : CrawlState) (q : List Entry)
    (ts : List CrawlTask) (u : String) :
    occ ⟨s2, q, ts⟩ u = occ ⟨s1, q, ts⟩ u := rfl

/-- The occurrence count decomposes over the queue. -/
theorem occ_queue (st : CrawlState) (q : List Entry)
    (ts : List CrawlTask) (u : String) :
    occ ⟨st, q, ts⟩ u = entCount q u + occ ⟨st, [], ts⟩ u := by
  simp only [occ, entCount, List.countP_nil]
  omega

/-- Preservation for steps that change only one task's phase (same
entry) without affecting gate status, held entries, visited or
discovered sets, and whose histogram change matches the task's
mid-stats transition. -/
theorem inv_update {max_depth : Int} {st st' : CrawlState} {q : List Entry}
    {t1 t2 : List CrawlTask} {e : Entry} {ph ph' : Phase}
    (hvis : st'.visited = st.visited)
    (hdisc : st'.discovered = st.discovered)
    (hstats : Multiset.card st'.stats + (if phaseMidStats ph' = true then 1 else 0)
        = Multiset.card st.stats + (if phaseMidStats ph = true then 1 else 0))
    (hgate : phasePastGate ph' = phasePastGate ph)
    (hhold : phaseHolding ph' = phaseHolding ph)
    (hskip : (ph' = Phase.skipped ∨ ph' = Phase.collectedSkip) →
        ((ph = Phase.skipped ∨ ph = Phase.collectedSkip) ∨ max_depth < e.depth))
    (hi : Inv max_depth ⟨st, q, t1 ++ ⟨e, ph⟩ :: t2⟩) :
    Inv max_depth ⟨st', q, t1 ++ ⟨e, ph'⟩ :: t2⟩ := by
  obtain ⟨h1, h2, h3, h4, h5, h6, h7, h8, h9⟩ := hi
  refine ⟨?_, ?_, ?_, ?_, ?_, ?_, ?_, ?_, ?_⟩
  · intro t ht hpg
    simp only [hvis]
    rcases mem_middle_iff.mp ht with ht | rfl | ht
    · exact h1 t (mem_middle_iff.mpr (Or.inl ht)) hpg
    · exact h1 ⟨e, ph⟩ (mem_middle_self t1 t2 _) (by rw [← hgate]; exact hpg)
    · exact h1 t (mem_middle_iff.mpr (Or.inr (Or.inr ht))) hpg
  · intro u hu
    simp only [hvis] at hu
    obtain ⟨t, ht, hturl, htpg⟩ := h2 u hu
    rcases mem_middle_iff.mp ht with ht | rfl | ht
    · exact ⟨t, mem_middle_iff.mpr (Or.inl ht), hturl, htpg⟩
    · exact ⟨⟨e, ph'⟩, mem_middle_self t1 t2 _, hturl, by rw [hgate]; exact htpg⟩
    · exact ⟨t, mem_middle_iff.mpr (Or.inr (Or.inr ht)), hturl, htpg⟩
  · intro u
    have hh := h3 u
    simp only [occ, countP_middle, mapSum_middle, hhold, hdisc] at hh ⊢
    exact hh
  · intro x hx
    simp only [hdisc]
    exact h4 x hx
  · intro t ht x hx
    simp only [hdisc]
    rcases mem_middle_iff.mp ht with ht | rfl | ht
    · exact h5 t (mem_middle_iff.mpr (Or.inl ht)) x hx
    · exact h5 ⟨e, ph⟩ (mem_middle_self t1 t2 _) x (by rw [← hhold]; exact hx)
    · exact h5 t (mem_middle_iff.mpr (Or.inr (Or.inr ht))) x hx
  · intro t ht
    simp only [hdisc]
    rcases mem_middle_iff.mp ht with ht | rfl | ht
    · exact h6 t (mem_middle_iff.mpr (Or.inl ht))
    · exact h6 ⟨e, ph⟩ (mem_middle_self t1 t2 _)
    · exact h6 t (mem_middle_iff.mpr (Or.inr (Or.inr ht)))
  · intro t ht hts
    rcases mem_middle_iff.mp ht with ht | rfl | ht
    · exact h7 t (mem_middle_iff.mpr (Or.inl ht)) hts
    · rcases hskip hts with hold | hd
      · exact h7 ⟨e, ph⟩ (mem_middle_self t1 t2 _) hold
      · exact hd
    · exact h7 t (mem_middle_iff.mpr (Or.inr (Or.inr ht))) hts
  · intro t ht hpg
    rcases mem_middle_iff.mp ht with ht | rfl | ht
    · exact h8 t (mem_middle_iff.mpr (Or.inl ht)) hpg
    · exact h8 ⟨e, ph⟩ (mem_middle_self t1 t2 _) (by rw [← hgate]; exact hpg)
    · exact h8 t (mem_middle_iff.mpr (Or.inr (Or.inr ht))) hpg
  · simp only [countP_middle] at h9 ⊢
    simp only [hvis]
    omega

/-- Preservation for `dispatch`. -/
theorem inv_dispatch {max_depth : Int} {st : CrawlState} {e : Entry}
    {q : List Entry} {ts : List CrawlTask}
    (hi : Inv max_depth ⟨st, e :: q, ts⟩) :
    Inv max_depth ⟨st, q, ts ++ [⟨e, Phase.start⟩]⟩ := by
  obtain ⟨h1, h2, h3, h4, h5, h6, h7, h8, h9⟩ := hi
  refine ⟨?_, ?_, ?_, ?_, ?_, ?_, ?_, ?_, ?_⟩
  · intro t ht hpg
    rcases List.mem_append.mp ht with ht | ht
    · exact h1 t ht hpg
    · have := List.mem_singleton.mp ht
      subst this
      simp [phasePastGate] at hpg
  · intro u hu
    obtain ⟨t, ht, hturl, htpg⟩ := h2 u hu
    exact ⟨t, List.mem_append_left _ ht, hturl, htpg⟩
  · intro u
    have hh := h3 u
    simp only [occ, entCount, List.countP_cons, countP_append_right,
      mapSum_append_right, phaseHolding, List.countP_nil] at hh ⊢
    omega
  · intro x hx
    exact h4 x (List.mem_cons_of_mem e hx)
  · intro t ht x hx
    rcases List.mem_append.mp ht with ht | ht
    · exact h5 t ht x hx
    · have := List.mem_singleton.mp ht
      subst this
      simp [phaseHolding] at hx
  · intro t ht
    rcases List.mem_append.mp ht with ht | ht
    · exact h6 t ht
    · have := List.mem_singleton.mp ht
      subst this
      exact h4 e (List.mem_cons_self e q)
  · intro t ht hts
    rcases List.mem_append.mp ht with ht | ht
    · exact h7 t ht hts
    · have := List.mem_singleton.mp ht
      subst this
      rcases hts with hc | hc <;> cases hc
  · intro t ht hpg
    rcases List.mem_append.mp ht with ht | ht
    · exact h8 t ht hpg
    · have := List.mem_singleton.mp ht
      subst this
      simp [phasePastGate] at hpg
  · dsimp only at h9 ⊢
    have e0 : List.countP (fun t => phaseMidStats t.phase)
        [(⟨e, Phase.start⟩ : CrawlTask)] = 0 := rfl
    rw [List.countP_append, e0]
    omega

/-- Preservation for `gatePass`. -/
theorem inv_gatePass {max_depth : Int} {st : CrawlState} {q : List Entry}
    {t1 t2 : List CrawlTask} {e : Entry}
    (h1v : e.url ∉ st.visited) (h2d : e.depth ≤ max_depth)
    (hi : Inv max_depth ⟨st, q, t1 ++ ⟨e, Phase.start⟩ :: t2⟩) :
    Inv max_depth ⟨{st with visited := insert e.url st.visited}, q,
      t1 ++ ⟨e, Phase.fetching⟩ :: t2⟩ := by
  obtain ⟨h1, h2, h3, h4, h5, h6, h7, h8, h9⟩ := hi
  refine ⟨?_, ?_, ?_, ?_, ?_, ?_, ?_, ?_, ?_⟩
  · intro t ht hpg
    rcases mem_middle_iff.mp ht with ht | rfl | ht
    · exact Finset.mem_insert_of_mem
        (h1 t (mem_middle_iff.mpr (Or.inl ht)) hpg)
    · exact Finset.mem_insert_self _ _
    · exact Finset.mem_insert_of_mem
        (h1 t (mem_middle_iff.mpr (Or.inr (Or.inr ht))) hpg)
  · intro u hu
    rcases Finset.mem_insert.mp hu with rfl | hu
    · exact ⟨⟨e, Phase.fetching⟩, mem_middle_self t1 t2 _, rfl, rfl⟩
    · obtain ⟨t, ht, hturl, htpg⟩ := h2 u hu
      rcases mem_middle_iff.mp ht with ht | rfl | ht
      · exact ⟨t, mem_middle_iff.mpr (Or.inl ht), hturl, htpg⟩
      · simp [phasePastGate] at htpg
      · exact ⟨t, mem_middle_iff.mpr (Or.inr (Or.inr ht)), hturl, htpg⟩
  · intro u
    have hh := h3 u
    simp only [occ, countP_middle, mapSum_middle, phaseHolding] at hh ⊢
    exact hh
  · intro x hx
    exact h4 x hx
  · intro t ht x hx
    rcases mem_middle_iff.mp ht with ht | rfl | ht
    · exact h5 t (mem_middle_iff.mpr (Or.inl ht)) x hx
    · simp [phaseHolding] at hx
    · exact h5 t (mem_middle_iff.mpr (Or.inr (Or.inr ht))) x hx
  · intro t ht
    rcases mem_middle_iff.mp ht with ht | rfl | ht
    · exact h6 t (mem_middle_iff.mpr (Or.inl ht))
    · exact h6 ⟨e, Phase.start⟩ (mem_middle_self t1 t2 _)
    · exact h6 t (mem_middle_iff.mpr (Or.inr (Or.inr ht)))
  · intro t ht hts
    rcases mem_middle_iff.mp ht with ht | rfl | ht
    · exact h7 t (mem_middle_iff.mpr (Or.inl ht)) hts
    · rcases hts with hc | hc <;> cases hc
    · exact h7 t (mem_middle_iff.mpr (Or.inr (Or.inr ht))) hts
  · intro t ht hpg
    rcases mem_middle_iff.mp ht with ht | rfl | ht
    · exact h8 t (mem_middle_iff.mpr (Or.inl ht)) hpg
    · exact h2d
    · exact h8 t (mem_middle_iff.mpr (Or.inr (Or.inr ht))) hpg
  · dsimp only at h9 ⊢
    have hcard : (insert e.url st.visited).card = st.visited.card + 1 :=
      Finset.card_insert_of_not_mem h1v
    have e0 : List.countP (fun t => phaseMidStats t.phase)
        ((⟨e, Phase.start⟩ : CrawlTask) :: t2) = List.countP (fun t => phaseMidStats t.phase) t2 := rfl
    have e1 : List.countP (fun t => phaseMidStats t.phase)
        ((⟨e, Phase.fetching⟩ : CrawlTask) :: t2)
      = List.countP (fun t => phaseMidStats t.phase) t2 + 1 := by
      rw [List.countP_cons]
      simp [phaseMidStats]
    rw [List.countP_append, e0] at h9
    rw [List.countP_append, e1]
    simp only [hcard]
    omega

/-- Preservation for `gateSkip`: the gate can only fail for depth
reasons, because a URL in the visited set already has its unique
past-gate task, and the occurrence invariant rules out a second task
for the same URL. -/
theorem inv_gateSkip {max_depth : Int} {st : CrawlState} {q : List Entry}
    {t1 t2 : List CrawlTask} {e : Entry}
    (hor : e.url ∈ st.visited ∨ max_depth < e.depth)
    (hi : Inv max_depth ⟨st, q, t1 ++ ⟨e, Phase.start⟩ :: t2⟩) :
    Inv max_depth ⟨st, q, t1 ++ ⟨e, Phase.skipped⟩ :: t2⟩ := by
  have hdepth : max_depth < e.depth := by
    rcases hor with hv | hd
    · exfalso
      obtain ⟨t, ht, hturl, htpg⟩ := hi.visited_task e.url hv
      have hne : t ≠ ⟨e, Phase.start⟩ := by
        intro hq
        subst hq
        simp [phasePastGate] at htpg
      have h2c := two_le_countP (fun s => s.entry.url == e.url)
        (t1 ++ ⟨e, Phase.start⟩ :: t2) t ⟨e, Phase.start⟩ ht
        (mem_middle_self t1 t2 _) hne (by simp [hturl]) (by simp)
      have hocc := hi.occ_discovered e.url
      simp only [occ] at hocc
      by_cases hd2 : e.url ∈ st.discovered
      · rw [if_pos hd2] at hocc
        omega
      · rw [if_neg hd2] at hocc
        omega
    · exact hd
  refine inv_update ?_ ?_ ?_ ?_ ?_ (fun _ => Or.inr hdepth) hi <;> rfl

/-- Preservation for `extractStep`. -/
theorem inv_extractStep {max_depth : Int} {st : CrawlState} {q : List Entry}
    {t1 t2 : List CrawlTask} {e : Entry} {base_url href : String}
    {hrefs : List String} {acc : List Entry}
    (hi : Inv max_depth ⟨st, q, t1 ++ ⟨e, Phase.extracting (href :: hrefs) acc⟩ :: t2⟩) :
    Inv max_depth ⟨(processHref base_url e.url e.depth (st, acc) href).1, q,
      t1 ++ ⟨e, Phase.extracting hrefs
        (processHref base_url e.url e.depth (st, acc) href).2⟩ :: t2⟩ := by
  unfold processHref
  dsimp only
  split_ifs with hc1 hc2 hc3
  · refine inv_update ?_ ?_ ?_ ?_ ?_
      (fun hc => by rcases hc with hc | hc <;> cases hc) hi <;> rfl
  · refine inv_update ?_ ?_ ?_ ?_ ?_
      (fun hc => by rcases hc with hc | hc <;> cases hc) hi <;> rfl
  · -- the new-link case: the href is added to `discovered` and to the
    -- task's accumulated result entries
    dsimp only
    obtain ⟨h1, h2, h3, h4, h5, h6, h7, h8, h9⟩ := hi
    refine ⟨?_, ?_, ?_, ?_, ?_, ?_, ?_, ?_, ?_⟩
    · intro t ht hpg
      rcases mem_middle_iff.mp ht with ht | rfl | ht
      · exact h1 t (mem_middle_iff.mpr (Or.inl ht)) hpg
      · exact h1 ⟨e, Phase.extracting (href :: hrefs) acc⟩ (mem_middle_self t1 t2 _) hpg
      · exact h1 t (mem_middle_iff.mpr (Or.inr (Or.inr ht))) hpg
    · intro u hu
      obtain ⟨t, ht, hturl, htpg⟩ := h2 u hu
      rcases mem_middle_iff.mp ht with ht | rfl | ht
      · exact ⟨t, mem_middle_iff.mpr (Or.inl ht), hturl, htpg⟩
      · exact ⟨⟨e, Phase.extracting hrefs
          (acc ++ [⟨normalize_url e.url href, e.depth + 1, e.url⟩])⟩,
          mem_middle_self t1 t2 _, hturl, htpg⟩
      · exact ⟨t, mem_middle_iff.mpr (Or.inr (Or.inr ht)), hturl, htpg⟩
    · intro u
      have hh := h3 u
      rw [occ_eq] at hh
      rw [occ_eq]
      rw [show phaseHolding (Phase.extracting hrefs
            (acc ++ [⟨normalize_url e.url href, e.depth + 1, e.url⟩]))
          = acc ++ [⟨normalize_url e.url href, e.depth + 1, e.url⟩] from rfl]
      rw [show phaseHolding (Phase.extracting (href :: hrefs) acc) = acc from rfl] at hh
      rw [entCount_append, entCount_singleton]
      rw [occ_config_st st
        {st with discovered := insert (normalize_url e.url href) st.discovered}
        q (t1 ++ t2) u]
      by_cases hu : u = normalize_url e.url href
      · subst hu
        rw [if_neg hc3] at hh
        rw [if_pos (Finset.mem_insert_self _ _)]
        have hb2 : (((⟨normalize_url e.url href, e.depth + 1, e.url⟩ : Entry)).url
            == normalize_url e.url href) = true := by simp
        rw [if_pos hb2]
        omega
      · have hb : (((⟨normalize_url e.url href, e.depth + 1, e.url⟩ : Entry)).url == u)
            = false := by
          simp only [beq_eq_false_iff_ne, ne_eq]
          exact fun hq => hu hq.symm
        rw [if_neg (by rw [hb]; exact Bool.false_ne_true)]
        have hmem : u ∈ insert (normalize_url e.url href) st.discovered
            ↔ u ∈ st.discovered := by
          rw [Finset.mem_insert]
          constructor
          · rintro (hq | hq)
            · exact absurd hq hu
            · exact hq
          · exact Or.inr
        by_cases hd2 : u ∈ st.discovered
        · rw [if_pos hd2] at hh
          rw [if_pos (hmem.mpr hd2)]
          omega
        · rw [if_neg hd2] at hh
          rw [if_neg (fun hq => hd2 (hmem.mp hq))]
          omega
    · intro x hx
      exact Finset.mem_insert_of_mem (h4 x hx)
    · intro t ht x hx
      rcases mem_middle_iff.mp ht with ht | rfl | ht
      · exact Finset.mem_insert_of_mem (h5 t (mem_middle_iff.mpr (Or.inl ht)) x hx)
      · simp only [phaseHolding] at hx
        rcases List.mem_append.mp hx with hx | hx
        · exact Finset.mem_insert_of_mem
            (h5 ⟨e, Phase.extracting (href :: hrefs) acc⟩ (mem_middle_self t1 t2 _) x hx)
        · have := List.mem_singleton.mp hx
          subst this
          exact Finset.mem_insert_self _ _
      · exact Finset.mem_insert_of_mem
          (h5 t (mem_middle_iff.mpr (Or.inr (Or.inr ht))) x hx)
    · intro t ht
      rcases mem_middle_iff.mp ht with ht | rfl | ht
      · exact Finset.mem_insert_of_mem (h6 t (mem_middle_iff.mpr (Or.inl ht)))
      · exact Finset.mem_insert_of_mem
          (h6 ⟨e, Phase.extracting (href :: hrefs) acc⟩ (mem_middle_self t1 t2 _))
      · exact Finset.mem_insert_of_mem (h6 t (mem_middle_iff.mpr (Or.inr (Or.inr ht))))
    · intro t ht hts
      rcases mem_middle_iff.mp ht with ht | rfl | ht
      · exact h7 t (mem_middle_iff.mpr (Or.inl ht)) hts
      · rcases hts with hc | hc <;> cases hc
      · exact h7 t (mem_middle_iff.mpr (Or.inr (Or.inr ht))) hts
    · intro t ht hpg
      rcases mem_middle_iff.mp ht with ht | rfl | ht
      · exact h8 t (mem_middle_iff.mpr (Or.inl ht)) hpg
      · exact h8 ⟨e, Phase.extracting (href :: hrefs) acc⟩ (mem_middle_self t1 t2 _) hpg
      · exact h8 t (mem_middle_iff.mpr (Or.inr (Or.inr ht))) hpg
    · dsimp only at h9 ⊢
      have e0 : ∀ l : List CrawlTask, ∀ ph : Phase, phaseMidStats ph = false →
          List.countP (fun t => phaseMidStats t.phase) ((⟨e, ph⟩ : CrawlTask) :: l)
            = List.countP (fun t => phaseMidStats t.phase) l := by
        intro l ph hph
        rw [List.countP_cons]
        simp [hph]
      rw [List.countP_append, e0 t2 (Phase.extracting (href :: hrefs) acc) rfl] at h9
      rw [List.countP_append, e0 t2 (Phase.extracting hrefs
        (acc ++ [(⟨normalize_url e.url href, e.depth + 1, e.url⟩ : Entry)])) rfl]
      omega
  · refine inv_update ?_ ?_ ?_ ?_ ?_
      (fun hc => by rcases hc with hc | hc <;> cases hc) hi <;> rfl

/-- Preservation for `collect`. -/
theorem inv_collect {max_depth : Int} {st : CrawlState} {q : List Entry}
    {t1 t2 : List CrawlTask} {e : Entry} {r : List Entry}
    (hi : Inv max_depth ⟨st, q, t1 ++ ⟨e, Phase.done r⟩ :: t2⟩) :
    Inv max_depth ⟨st, (if r.isEmpty then q else q ++ r),
      t1 ++ ⟨e, Phase.collected r⟩ :: t2⟩ := by
  obtain ⟨h1, h2, h3, h4, h5, h6, h7, h8, h9⟩ := hi
  have hqcount : ∀ u, entCount (if r.isEmpty then q else q ++ r) u
      = entCount q u + entCount r u := by
    intro u
    cases r with
    | nil => simp [entCount]
    | cons x xs => simp [entCount, List.countP_append]
  have hqmem : ∀ x, x ∈ (if r.isEmpty then q else q ++ r) → x ∈ q ∨ x ∈ r := by
    intro x hx
    cases r with
    | nil =>
      simp only [List.isEmpty_nil, if_pos] at hx
      exact Or.inl hx
    | cons y ys =>
      simp only [List.isEmpty_cons, Bool.false_eq_true, if_false] at hx
      exact List.mem_append.mp hx
  refine ⟨?_, ?_, ?_, ?_, ?_, ?_, ?_, ?_, ?_⟩
  · intro t ht hpg
    rcases mem_middle_iff.mp ht with ht | rfl | ht
    · exact h1 t (mem_middle_iff.mpr (Or.inl ht)) hpg
    · exact h1 ⟨e, Phase.done r⟩ (mem_middle_self t1 t2 _) rfl
    · exact h1 t (mem_middle_iff.mpr (Or.inr (Or.inr ht))) hpg
  · intro u hu
    obtain ⟨t, ht, hturl, htpg⟩ := h2 u hu
    rcases mem_middle_iff.mp ht with ht | rfl | ht
    · exact ⟨t, mem_middle_iff.mpr (Or.inl ht), hturl, htpg⟩
    · exact ⟨⟨e, Phase.collected r⟩, mem_middle_self t1 t2 _, hturl, rfl⟩
    · exact ⟨t, mem_middle_iff.mpr (Or.inr (Or.inr ht)), hturl, htpg⟩
  · intro u
    have hh := h3 u
    rw [occ_eq] at hh
    rw [occ_eq]
    rw [show phaseHolding (Phase.collected r) = ([] : List Entry) from rfl]
    rw [show phaseHolding (Phase.done r) = r from rfl] at hh
    rw [occ_queue st q (t1 ++ t2) u] at hh
    rw [occ_queue st (if r.isEmpty then q else q ++ r) (t1 ++ t2) u]
    rw [hqcount u]
    rw [show entCount ([] : List Entry) u = 0 from rfl]
    dsimp only at hh ⊢
    omega
  · intro x hx
    rcases hqmem x hx with hx | hx
    · exact h4 x hx
    · exact h5 ⟨e, Phase.done r⟩ (mem_middle_self t1 t2 _) x hx
  · intro t ht x hx
    rcases mem_middle_iff.mp ht with ht | rfl | ht
    · exact h5 t (mem_middle_iff.mpr (Or.inl ht)) x hx
    · simp [phaseHolding] at hx
    · exact h5 t (mem_middle_iff.mpr (Or.inr (Or.inr ht))) x hx
  · intro t ht
    rcases mem_middle_iff.mp ht with ht | rfl | ht
    · exact h6 t (mem_middle_iff.mpr (Or.inl ht))
    · exact h6 ⟨e, Phase.done r⟩ (mem_middle_self t1 t2 _)
    · exact h6 t (mem_middle_iff.mpr (Or.inr (Or.inr ht)))
  · intro t ht hts
    rcases mem_middle_iff.mp ht with ht | rfl | ht
    · exact h7 t (mem_middle_iff.mpr (Or.inl ht)) hts
    · rcases hts with hc | hc <;> cases hc
    · exact h7 t (mem_middle_iff.mpr (Or.inr (Or.inr ht))) hts
  · intro t ht hpg
    rcases mem_middle_iff.mp ht with ht | rfl | ht
    · exact h8 t (mem_middle_iff.mpr (Or.inl ht)) hpg
    · exact h8 ⟨e, Phase.done r⟩ (mem_middle_self t1 t2 _) rfl
    · exact h8 t (mem_middle_iff.mpr (Or.inr (Or.inr ht))) hpg
  · dsimp only at h9 ⊢
    have e0 : ∀ l : List CrawlTask, ∀ ph : Phase, phaseMidStats ph = false →
        List.countP (fun t => phaseMidStats t.phase) ((⟨e, ph⟩ : CrawlTask) :: l)
          = List.countP (fun t => phaseMidStats t.phase) l := by
      intro l ph hph
      rw [List.countP_cons]
      simp [hph]
    rw [List.countP_append, e0 t2 (Phase.done r) rfl] at h9
    rw [List.countP_append, e0 t2 (Phase.collected r) rfl]
    omega

/-- Preservation of the invariant by every atomic step. -/
theorem inv_step {fetch : String → FetchOutcome} {base_url : String} {max_depth : Int}
    {c1 : Config} {l : List String} {c2 : Config}
    (hs : Step fetch base_url max_depth c1 l c2) (hi : Inv max_depth c1) :
    Inv max_depth c2 := by
  cases hs with
  | dispatch st e q ts => exact inv_dispatch hi
  | gateSkip st q t1 t2 e h => exact inv_gateSkip h hi
  | gatePass st q t1 t2 e h1 h2 => exact inv_gatePass h1 h2 hi
  | fetchOk st q t1 t2 e status hrefs h =>
    refine inv_update ?_ ?_ ?_ ?_ ?_
      (fun hc => by rcases hc with hc | hc <;> cases hc) hi <;> rfl
  | fetchErr st q t1 t2 e msg h =>
    refine inv_update ?_ ?_ ?_ ?_ ?_
      (fun hc => by rcases hc with hc | hc <;> cases hc) hi <;> rfl
  | recordStatus st q t1 t2 e status hrefs =>
    refine inv_update ?_ ?_ ?_ ?_ ?_
      (fun hc => by rcases hc with hc | hc <;> cases hc) hi <;>
      first
        | rfl
        | simp [phaseMidStats, Multiset.card_cons]
  | errCommit st q t1 t2 e msg =>
    refine inv_update ?_ ?_ ?_ ?_ ?_
      (fun hc => by rcases hc with hc | hc <;> cases hc) hi <;>
      first
        | rfl
        | simp [phaseMidStats, Multiset.card_cons]
  | brokenCommit st q t1 t2 e status hrefs h =>
    refine inv_update ?_ ?_ ?_ ?_ ?_
      (fun hc => by rcases hc with hc | hc <;> cases hc) hi <;> rfl
  | beginExtract st q t1 t2 e status hrefs h =>
    refine inv_update ?_ ?_ ?_ ?_ ?_
      (fun hc => by rcases hc with hc | hc <;> cases hc) hi <;> rfl
  | extractStep st q t1 t2 e href hrefs acc => exact inv_extractStep hi
  | extractDone st q t1 t2 e acc =>
    refine inv_update ?_ ?_ ?_ ?_ ?_
      (fun hc => by rcases hc with hc | hc <;> cases hc) hi <;> rfl
  | collect st q t1 t2 e r => exact inv_collect hi
  | collectSkip st q t1 t2 e =>
    refine inv_update ?_ ?_ ?_ ?_ ?_ (fun _ => Or.inl (Or.inl rfl)) hi <;> rfl

/-- The invariant holds initially. -/
theorem inv_init (base_url : String) (max_depth : Int) :
    Inv max_depth (initConfig base_url) := by
  refine ⟨?_, ?_, ?_, ?_, ?_, ?_, ?_, ?_, ?_⟩
  · intro t ht hpg
    simp [initConfig] at ht
  · intro u hu
    simp [initConfig] at hu
  · intro u
    by_cases hu : u = base_url
    · subst hu
      have h1 : occ (initConfig u) u = 1 := by
        simp [occ, entCount, initConfig, List.countP_cons, List.countP_nil]
      rw [h1, if_pos]
      exact Finset.mem_singleton_self u
    · have h1 : occ (initConfig base_url) u = 0 := by
        have hb : (base_url == u) = false := by
          rw [beq_eq_false_iff_ne]
          exact fun hq => hu hq.symm
        simp [occ, entCount, initConfig, List.countP_cons, List.countP_nil, hb]
      rw [h1, if_neg]
      exact fun hq => hu (Finset.mem_singleton.mp hq)
  · intro x hx
    have : x = (⟨base_url, 0, "root"⟩ : Entry) := by
      simpa [initConfig] using hx
    subst this
    exact Finset.mem_singleton_self base_url
  · intro t ht
    simp [initConfig] at ht
  · intro t ht
    simp [initConfig] at ht
  · intro t ht
    simp [initConfig] at ht
  · intro t ht
    simp [initConfig] at ht
  · simp [initConfig]

/-- The invariant is preserved by executions. -/
theorem inv_exec {fetch : String → FetchOutcome} {base_url : String} {max_depth : Int}
    {c1 : Config} {tr : List String} {c2 : Config}
    (he : Exec fetch base_url max_depth c1 tr c2) :
    Inv max_depth c1 → Inv max_depth c2 := by
  induction he with
  | refl c => exact id
  | step hs he2 ih => exact fun hi => ih (inv_step hs hi)

/-- No atomic step ever removes a URL from the visited set. -/
theorem step_visited_mono {fetch : String → FetchOutcome} {base_url : String}
    {max_depth : Int} {c1 : Config} {l : List String} {c2 : Config}
    (hs : Step fetch base_url max_depth c1 l c2) :
    c1.st.visited ⊆ c2.st.visited := by
  cases hs with
  | gatePass st q t1 t2 e h1 h2 => exact Finset.subset_insert _ _
  | dispatch st e q ts => exact Finset.Subset.refl _
  | gateSkip st q t1 t2 e h => exact Finset.Subset.refl _
  | fetchOk st q t1 t2 e status hrefs h => exact Finset.Subset.refl _
  | fetchErr st q t1 t2 e msg h => exact Finset.Subset.refl _
  | recordStatus st q t1 t2 e status hrefs => exact Finset.Subset.refl _
  | errCommit st q t1 t2 e msg => exact Finset.Subset.refl _
  | brokenCommit st q t1 t2 e status hrefs h => exact Finset.Subset.refl _
  | beginExtract st q t1 t2 e status hrefs h => exact Finset.Subset.refl _
  | extractStep st q t1 t2 e href hrefs acc =>
    unfold processHref
    dsimp only
    split_ifs <;> exact Finset.Subset.refl _
  | extractDone st q t1 t2 e acc => exact Finset.Subset.refl _
  | collect st q t1 t2 e r => exact Finset.Subset.refl _
  | collectSkip st q t1 t2 e => exact Finset.Subset.refl _

theorem exec_visited_mono {fetch : String → FetchOutcome} {base_url : String}
    {max_depth : Int} {c1 : Config} {tr : List String} {c2 : Config}
    (he : Exec fetch base_url max_depth c1 tr c2) :
    c1.st.visited ⊆ c2.st.visited := by
  induction he with
  | refl c => exact Finset.Subset.refl _
  | step hs he2 ih => exact Finset.Subset.trans (step_visited_mono hs) ih

/-- A fetch is performed only by a task whose URL is already recorded
as visited (the gate inserted it before the fetch). -/
theorem step_label_visited {fetch : String → FetchOutcome} {base_url : String}
    {max_depth : Int} {c1 : Config} {l : List String} {c2 : Config}
    (hs : Step fetch base_url max_depth c1 l c2) (hi : Inv max_depth c1) :
    ∀ u ∈ l, u ∈ c2.st.visited := by
  intro u hu
  cases hs with
  | fetchOk st q t1 t2 e status hrefs h =>
    have := List.mem_singleton.mp hu
    subst this
    exact hi.pastGate_visited ⟨e, Phase.fetching⟩ (mem_middle_self t1 t2 _) rfl
  | fetchErr st q t1 t2 e msg h =>
    have := List.mem_singleton.mp hu
    subst this
    exact hi.pastGate_visited ⟨e, Phase.fetching⟩ (mem_middle_self t1 t2 _) rfl
  | dispatch st e q ts => simp at hu
  | gateSkip st q t1 t2 e h => simp at hu
  | gatePass st q t1 t2 e h1 h2 => simp at hu
  | recordStatus st q t1 t2 e status hrefs => simp at hu
  | errCommit st q t1 t2 e msg => simp at hu
  | brokenCommit st q t1 t2 e status hrefs h => simp at hu
  | beginExtract st q t1 t2 e status hrefs h => simp at hu
  | extractStep st q t1 t2 e href hrefs acc => simp at hu
  | extractDone st q t1 t2 e acc => simp at hu
  | collect st q t1 t2 e r => simp at hu
  | collectSkip st q t1 t2 e => simp at hu

/-- Every URL fetched during an execution ends up in the visited set. -/
theorem exec_fetched_visited {fetch : String → FetchOutcome} {base_url : String}
    {max_depth : Int} {c1 : Config} {tr : List String} {c2 : Config}
    (he : Exec fetch base_url max_depth c1 tr c2) :
    Inv max_depth c1 → ∀ u ∈ tr, u ∈ c2.st.visited := by
  induction he with
  | refl c =>
    intro hi u hu
    simp at hu
  | step hs he2 ih =>
    intro hi u hu
    rcases List.mem_append.mp hu with hu | hu
    · exact exec_visited_mono he2 (step_label_visited hs hi u hu)
    · exact ih (inv_step hs hi) u hu

/-- Each step changes the post-fetch task count by exactly its label. -/
theorem step_fetch_count {fetch : String → FetchOutcome} {base_url : String}
    {max_depth : Int} {c1 : Config} {l : List String} {c2 : Config}
    (hs : Step fetch base_url max_depth c1 l c2) (u : String) :
    fetchedCount c2 u = fetchedCount c1 u + l.count u := by
  cases hs <;>
    (simp [fetchedCount, countP_middle, countP_append_right, List.countP_cons,
      phasePostFetch, List.count_cons, List.count_nil, Bool.and_true, Bool.and_false]
     try omega)

theorem exec_fetch_count {fetch : String → FetchOutcome} {base_url : String}
    {max_depth : Int} {c1 : Config} {tr : List String} {c2 : Config}
    (he : Exec fetch base_url max_depth c1 tr c2) (u : String) :
    fetchedCount c2 u = fetchedCount c1 u + tr.count u := by
  induction he with
  | refl c => simp
  | step hs he2 ih =>
    rw [ih, step_fetch_count hs u, List.count_append]
    omega

/-- Under the invariant at most one task per URL has fetched. -/
theorem fetchedCount_le_one {max_depth : Int} {c : Config}
    (hi : Inv max_depth c) (u : String) : fetchedCount c u ≤ 1 := by
  have h1 : fetchedCount c u ≤ c.tasks.countP (fun t => t.entry.url == u) := by
    refine countP_le_of_imp _ _ _ ?_
    intro t ht hp
    exact (Bool.and_eq_true _ _ |>.mp hp).1
  have h2 := hi.occ_discovered u
  have h3 : c.tasks.countP (fun t => t.entry.url == u) ≤ occ c u := by
    simp only [occ]
    omega
  by_cases hd : u ∈ c.st.discovered
  · rw [if_pos hd] at h2
    omega
  · rw [if_neg hd] at h2
    omega

/-! ### Claims C1, C10, C2 -/

/-- C1: along any execution of the crawl from its initial
configuration, (i) the visited set only ever grows (no step shrinks
it), (ii) every URL that is HTTP-fetched was admitted by the atomic
check-and-insert gate and is in the visited set, and (iii) each URL is
fetched at most once in the whole crawl.  The atomicity of the gate is
the `gatePass` action itself, which tests membership and inserts in
one step. -/
theorem claim_C1 (fetch : String → FetchOutcome) (base_url : String) (max_depth : Int)
    (tr : List String) (c : Config)
    (h : Exec fetch base_url max_depth (initConfig base_url) tr c) :
    (∀ (c1 : Config) (l : List String) (c2 : Config),
        Step fetch base_url max_depth c1 l c2 → c1.st.visited ⊆ c2.st.visited)
    ∧ (∀ u ∈ tr, u ∈ c.st.visited)
    ∧ (∀ u : String, tr.count u ≤ 1) := by
  refine ⟨fun c1 l c2 hs => step_visited_mono hs,
    exec_fetched_visited h (inv_init base_url max_depth), fun u => ?_⟩
  have hc := exec_fetch_count h u
  have hb := fetchedCount_le_one (inv_exec h (inv_init base_url max_depth)) u
  have h0 : fetchedCount (initConfig base_url) u = 0 := by
    simp [fetchedCount, initConfig]
  omega

/-- C10: every URL entering the visited set contributes exactly one
histogram increment (its status code, or the `"error"` key), so in any
reachable configuration in which no task is mid-execution — in
particular at crawl termination — the total histogram count equals the
size of the visited set. -/
theorem claim_C10 (fetch : String → FetchOutcome) (base_url : String) (max_depth : Int)
    (tr : List String) (c : Config)
    (h : Exec fetch base_url max_depth (initConfig base_url) tr c)
    (hq : Quiescent c) :
    Multiset.card c.st.stats = c.st.visited.card := by
  have hi := inv_exec h (inv_init base_url max_depth)
  have hmid : c.tasks.countP (fun t => phaseMidStats t.phase) = 0 := by
    rw [List.countP_eq_zero]
    intro t ht
    have hqt := hq t ht
    cases hph : t.phase <;> simp_all [phaseMidStats, phaseMidExec]
  have := hi.stats_card
  omega

/-- C2: when the crawl terminates (empty frontier, all tasks
collected), the visited set is exactly the discovered set minus the
URLs whose sole frontier entry had depth beyond the bound; moreover
each discovered URL was dispatched exactly once. -/
theorem claim_C2 (fetch : String → FetchOutcome) (base_url : String) (max_depth : Int)
    (tr : List String) (c : Config)
    (h : Exec fetch base_url max_depth (initConfig base_url) tr c)
    (hterm : Terminal c) (u : String) :
    (u ∈ c.st.visited ↔
      (u ∈ c.st.discovered ∧
        ∀ t ∈ c.tasks, t.entry.url = u → t.entry.depth ≤ max_depth))
    ∧ (u ∈ c.st.discovered →
        c.tasks.countP (fun t => t.entry.url == u) = 1) := by
  have hi := inv_exec h (inv_init base_url max_depth)
  obtain ⟨hq0, hfin⟩ := hterm
  have hocc : occ c u = c.tasks.countP (fun t => t.entry.url == u) := by
    have hzero : ∀ t ∈ c.tasks, entCount (phaseHolding t.phase) u = 0 := by
      intro t ht
      have hf := hfin t ht
      cases hph : t.phase <;> simp_all [phaseFinished, phaseHolding, entCount]
    have hsum : ((c.tasks.map (fun t => entCount (phaseHolding t.phase) u)).sum) = 0 := by
      rw [List.sum_eq_zero]
      intro x hx
      rw [List.mem_map] at hx
      obtain ⟨t, ht, rfl⟩ := hx
      exact hzero t ht
    have hqz : entCount c.queue u = 0 := by
      rw [hq0]
      rfl
    cases c with
    | mk st0 q0 ts0 =>
      simp only [occ] at *
      omega
  have huniq : u ∈ c.st.discovered →
      c.tasks.countP (fun t => t.entry.url == u) = 1 := by
    intro hd
    have h2 := hi.occ_discovered u
    rw [if_pos hd] at h2
    rw [hocc] at h2
    exact h2
  refine ⟨⟨?_, ?_⟩, huniq⟩
  · intro hv
    obtain ⟨t, ht, hturl, htpg⟩ := hi.visited_task u hv
    have hd : u ∈ c.st.discovered := by
      have := hi.task_discovered t ht
      rwa [hturl] at this
    refine ⟨hd, ?_⟩
    intro s hst hsurl
    by_cases hts : s = t
    · subst hts
      exact hi.pass_depth s hst htpg
    · exfalso
      have h2c := two_le_countP (fun x => x.entry.url == u) c.tasks s t hst ht hts
        (by simp [hsurl]) (by simp [hturl])
      have := huniq hd
      omega
  · rintro ⟨hd, hdep⟩
    have hcnt := huniq hd
    have hpos : 0 < c.tasks.countP (fun t => t.entry.url == u) := by omega
    obtain ⟨t, ht, htp⟩ := List.countP_pos_iff.mp hpos
    have hturl : t.entry.url = u := by
      exact eq_of_beq htp
    have hf := hfin t ht
    cases hph : t.phase with
    | collected r =>
      have hpg : phasePastGate t.phase = true := by
        rw [hph]
        rfl
      have := hi.pastGate_visited t ht hpg
      rwa [hturl] at this
    | collectedSkip =>
      exfalso
      have hsd := hi.skip_depth t ht (Or.inr hph)
      have := hdep t ht hturl
      omega
    | start => rw [hph] at hf; simp [phaseFinished] at hf
    | skipped => rw [hph] at hf; simp [phaseFinished] at hf
    | fetching => rw [hph] at hf; simp [phaseFinished] at hf
    | gotOk status hrefs => rw [hph] at hf; simp [phaseFinished] at hf
    | gotErr msg => rw [hph] at hf; simp [phaseFinished] at hf
    | classified status hrefs => rw [hph] at hf; simp [phaseFinished] at hf
    | extracting hrefs acc => rw [hph] at hf; simp [phaseFinished] at hf
    | done r => rw [hph] at hf; simp [phaseFinished] at hf

/-! ### A complete concrete execution (witness crawl) -/

theorem execSnoc {fetch : String → FetchOutcome} {base_url : String} {max_depth : Int}
    {c1 : Config} {tr : List String} {c2 : Config}
    (he : Exec fetch base_url max_depth c1 tr c2) :
    ∀ {l : List String} {c3 : Config}, Step fetch base_url max_depth c2 l c3 →
      Exec fetch base_url max_depth c1 (tr ++ l) c3 := by
  induction he with
  | refl c =>
    intro l c3 hs
    simpa using Exec.step hs (Exec.refl c3)
  | step hs1 he1 ih =>
    intro l c3 hs
    have h2 := Exec.step hs1 (ih hs)
    simpa [List.append_assoc] using h2

/-- The witness crawl of `http://h` with `max_depth = 0`, run to
termination: the base page is fetched (status 200), its two links are
discovered and enqueued, and both are skipped by the depth gate. -/
theorem demoExec :
    Exec demoFetch "http://h" 0 (initConfig "http://h") ["http://h"] demoFinal := by
  have h0 : Exec demoFetch "http://h" 0 (initConfig "http://h") [] (initConfig "http://h") :=
    Exec.refl _
  have h1 := execSnoc h0 (Step.dispatch _ demoEntry0 _ _)
  have h2 := execSnoc h1 (Step.gatePass _ _ [] [] demoEntry0 (by decide) (by decide))
  have h3 := execSnoc h2
    (Step.fetchOk _ _ [] [] demoEntry0 200 ["/a", "/b"] rfl)
  have h4 := execSnoc h3 (Step.recordStatus _ _ [] [] demoEntry0 200 ["/a", "/b"])
  have h5 := execSnoc h4
    (Step.beginExtract _ _ [] [] demoEntry0 200 ["/a", "/b"] (by decide))
  have h6 := execSnoc h5 (Step.extractStep _ _ [] [] demoEntry0 "/a" ["/b"] [])
  have h7 := execSnoc h6 (Step.extractStep _ _ [] [] demoEntry0 "/b" [] _)
  have h8 := execSnoc h7 (Step.extractDone _ _ [] [] demoEntry0 _)
  have h9 := execSnoc h8 (Step.collect _ _ [] [] demoEntry0 _)
  have h10 := execSnoc h9 (Step.dispatch _ demoEntryA _ _)
  have h11 := execSnoc h10 (Step.dispatch _ demoEntryB _ _)
  have h12 := execSnoc h11
    (Step.gateSkip _ _ [⟨demoEntry0, Phase.collected [demoEntryA, demoEntryB]⟩] _
      demoEntryA (Or.inr (by decide)))
  have h13 := execSnoc h12
    (Step.gateSkip _ _ [⟨demoEntry0, Phase.collected [demoEntryA, demoEntryB]⟩,
      ⟨demoEntryA, Phase.skipped⟩] _ demoEntryB (Or.inr (by decide)))
  have h14 := execSnoc h13
    (Step.collectSkip _ _ [⟨demoEntry0, Phase.collected [demoEntryA, demoEntryB]⟩] _
      demoEntryA)
  have h15 := execSnoc h14
    (Step.collectSkip _ _ [⟨demoEntry0, Phase.collected [demoEntryA, demoEntryB]⟩,
      ⟨demoEntryA, Phase.collectedSkip⟩] _ demoEntryB)
  exact h15

/-! ### Witnesses for C1, C10, C2 -/

/-- Witness for C1: the demo crawl fetches the base URL exactly once. -/
theorem claim_C1_witness :
    (∀ u ∈ ["http://h"], u ∈ demoFinal.st.visited)
    ∧ (["http://h"] : List String).count "http://h" ≤ 1 :=
  ⟨(claim_C1 demoFetch "http://h" 0 ["http://h"] demoFinal demoExec).2.1,
   (claim_C1 demoFetch "http://h" 0 ["http://h"] demoFinal demoExec).2.2 "http://h"⟩

/-- Witness for C10: at the end of the demo crawl the histogram total
({200: 1}) equals the visited-set size (1). -/
theorem claim_C10_witness :
    Multiset.card demoFinal.st.stats = demoFinal.st.visited.card
    ∧ Multiset.card demoFinal.st.stats = 1 :=
  ⟨claim_C10 demoFetch "http://h" 0 ["http://h"] demoFinal demoExec
     (by unfold Quiescent; decide),
   by decide⟩

/-- Witness for C2: a depth-0 crawl of a page with two internal links
discovers them but visits only the base URL (visited-set size 1). -/
theorem claim_C2_witness :
    ("http://h/a" ∉ demoFinal.st.visited)
    ∧ "http://h/a" ∈ demoFinal.st.discovered
    ∧ demoFinal.st.visited.card = 1 := by
  have h := claim_C2 demoFetch "http://h" 0 ["http://h"] demoFinal demoExec
    ⟨rfl, by decide⟩ "http://h/a"
  refine ⟨fun hv => ?_, by decide, by decide⟩
  have h2 := (h.1.mp hv).2 ⟨demoEntryA, Phase.collectedSkip⟩ (by decide) (by decide)
  exact absurd h2 (by decide)

end CheckBrokenLinks
